import Mathlib

/-!
# JSON Web Signature (HS256): encode, decode, sign

A shallow embedding of `jws.go` (package `jws`): the functions `Encode`, `Decode`,
`jwsHeader`, `jwsPayload` and `sign`, together with executable models of the
standard-library functions they call:

* `strings.Split`, `strings.Join` with the separator `"."`;
* `base64.StdEncoding.EncodeToString` and `base64.StdEncoding.DecodeString`;
* `hmac.New(sha256.New, key)`, `Write`, `Sum(nil)`.

`encoding/json` is not part of the package: `Encode` and `Decode` take the two
functions `json.Marshal` and `json.Unmarshal` (at the payload type) as arguments.

A Go `string` is a sequence of bytes; it is modelled as `List Byte`.
-/

namespace Jws

/-- One byte of a Go `string` or `[]byte`. -/
abbrev Byte := Fin 256

/-- A Go `string` (equally a `[]byte`): a finite sequence of bytes. -/
abbrev Bytes := List Byte

/-- The bytes of an ASCII string literal. -/
def ascii (s : String) : Bytes := s.data.map (fun c => Fin.ofNat c.toNat)

/-- The byte `'.'`, the separator of the compact serialization. -/
def dot : Byte := 46

/-! ## package strings -/

/-- Model of `strings.Split(s, sep)` for a one-byte separator: the substrings of `s`
between the occurrences of `sep`. The result is never empty: `Split "" sep = [""]`. -/
def Split : Bytes → Byte → List Bytes
  | [], _ => [[]]
  | c :: cs, sep =>
    if c = sep then [] :: Split cs sep
    else
      match Split cs sep with
      | [] => [[c]]
      | p :: ps => (c :: p) :: ps

/-- Model of `strings.Join(elems, sep)` for a one-byte separator. -/
def Join : List Bytes → Byte → Bytes
  | [], _ => []
  | [p], _ => p
  | p :: q :: ps, sep => p ++ sep :: Join (q :: ps) sep

/-- Model of `strings.Count(s, sep)` for a one-byte separator. -/
def Count (s : Bytes) (sep : Byte) : Nat := s.count sep

/-! ## package encoding/base64, `StdEncoding` -/

/-- The alphabet `encodeStd`:
`ABCDEFGHIJKLMNOPQRSTUVWXYZabcdefghijklmnopqrstuvwxyz0123456789+/`. -/
def encodeStd : Bytes :=
  [65, 66, 67, 68, 69, 70, 71, 72, 73, 74, 75, 76, 77, 78, 79, 80, 81, 82, 83, 84, 85, 86,
   87, 88, 89, 90,
   97, 98, 99, 100, 101, 102, 103, 104, 105, 106, 107, 108, 109, 110, 111, 112, 113, 114,
   115, 116, 117, 118, 119, 120, 121, 122,
   48, 49, 50, 51, 52, 53, 54, 55, 56, 57, 43, 47]

/-- The padding character `StdPadding`, `'='`. -/
def padChar : Byte := 61

/-- The table lookup `enc.encode[i]`. -/
def encodeChar (i : Nat) : Byte := encodeStd.getD i 0

/-- The table `enc.decodeMap`: the position of `c` in the alphabet, `0xFF` for a byte
that is not in the alphabet. -/
def decodeMap (c : Byte) : Nat :=
  let i := encodeStd.indexOf c
  if i < 64 then i else 0xFF

/-- Model of `base64.StdEncoding.EncodeToString`: every three bytes give four
characters; a remainder of one or two bytes gives two or three characters and is
padded with `=` to four. -/
def EncodeToString : Bytes → Bytes
  | [] => []
  | [a] =>
    let val := a.val <<< 16
    [encodeChar (val >>> 18 &&& 0x3F), encodeChar (val >>> 12 &&& 0x3F), padChar, padChar]
  | [a, b] =>
    let val := a.val <<< 16 ||| b.val <<< 8
    [encodeChar (val >>> 18 &&& 0x3F), encodeChar (val >>> 12 &&& 0x3F),
     encodeChar (val >>> 6 &&& 0x3F), padChar]
  | a :: b :: c :: rest =>
    let val := a.val <<< 16 ||| b.val <<< 8 ||| c.val
    encodeChar (val >>> 18 &&& 0x3F) :: encodeChar (val >>> 12 &&& 0x3F) ::
      encodeChar (val >>> 6 &&& 0x3F) :: encodeChar (val &&& 0x3F) :: EncodeToString rest

/-- The loops `for si < len(src) && (src[si] == '\n' || src[si] == '\r')` of
`decodeQuantum`. -/
def skipNewlines : Bytes → Bytes
  | [] => []
  | c :: cs => if c = 10 ∨ c = 13 then skipNewlines cs else c :: cs

/-- The end of `decodeQuantum`: the bytes of a quantum of `dlen` sextets `dbuf`
(`dlen` is 2, 3 or 4; missing sextets are zero; `StdEncoding` is not strict, the
unused low bits are dropped). -/
def quantumBytes (dbuf : List Nat) (dlen : Nat) : Bytes :=
  let val := dbuf.getD 0 0 <<< 18 ||| dbuf.getD 1 0 <<< 12 ||| dbuf.getD 2 0 <<< 6 |||
    dbuf.getD 3 0
  ([Fin.ofNat (val >>> 16), Fin.ofNat (val >>> 8), Fin.ofNat val] : Bytes).take (dlen - 1)

/-- The decoder of `base64.StdEncoding`: `Decode` calling `decodeQuantum` until the
source is used up or an error occurs, as one loop over the source. `j` and `dbuf`
are the position in the current quantum and its sextets so far. The result is the
bytes written to the destination, `dbuf[:n]`, and whether a `CorruptInputError` is
returned; as in Go, the bytes decoded before the error are part of the result. -/
def decodeLoop : Nat → List Nat → Bytes → Bytes × Bool
  | j, _, [] =>
    -- `len(src) == si`: end of input, fine at the start of a quantum only
    ([], decide (j ≠ 0))
  | j, dbuf, c :: rest =>
    if decodeMap c ≠ 0xFF then
      if j < 3 then decodeLoop (j + 1) (dbuf ++ [decodeMap c]) rest
      else
        let r := decodeLoop 0 [] rest
        (quantumBytes (dbuf ++ [decodeMap c]) 4 ++ r.1, r.2)
    else if c = 10 ∨ c = 13 then decodeLoop j dbuf rest
    else if c ≠ padChar then ([], true)
    else if j < 2 then ([], true)
    else if j = 2 then
      -- `"=="` is expected, the first `=` is already consumed
      match skipNewlines rest with
      | [] => ([], true)
      | d :: rest2 =>
        if d ≠ padChar then ([], true)
        else (quantumBytes dbuf 2, decide (skipNewlines rest2 ≠ []))
    else (quantumBytes dbuf 3, decide (skipNewlines rest ≠ []))

/-- Model of `base64.StdEncoding.DecodeString`: the decoded bytes `dbuf[:n]` and
whether the error is non-nil. -/
def DecodeString (s : Bytes) : Bytes × Bool := decodeLoop 0 [] s

/-! ## package crypto/sha256 -/

/-- The round constants `_K` of SHA-256. -/
def _K : List Nat :=
  [0x428a2f98, 0x71374491, 0xb5c0fbcf, 0xe9b5dba5, 0x3956c25b, 0x59f111f1, 0x923f82a4,
   0xab1c5ed5, 0xd807aa98, 0x12835b01, 0x243185be, 0x550c7dc3, 0x72be5d74, 0x80deb1fe,
   0x9bdc06a7, 0xc19bf174, 0xe49b69c1, 0xefbe4786, 0x0fc19dc6, 0x240ca1cc, 0x2de92c6f,
   0x4a7484aa, 0x5cb0a9dc, 0x76f988da, 0x983e5152, 0xa831c66d, 0xb00327c8, 0xbf597fc7,
   0xc6e00bf3, 0xd5a79147, 0x06ca6351, 0x14292967, 0x27b70a85, 0x2e1b2138, 0x4d2c6dfc,
   0x53380d13, 0x650a7354, 0x766a0abb, 0x81c2c92e, 0x92722c85, 0xa2bfe8a1, 0xa81a664b,
   0xc24b8b70, 0xc76c51a3, 0xd192e819, 0xd6990624, 0xf40e3585, 0x106aa070, 0x19a4c116,
   0x1e376c08, 0x2748774c, 0x34b0bcb5, 0x391c0cb3, 0x4ed8aa4a, 0x5b9cca4f, 0x682e6ff3,
   0x748f82ee, 0x78a5636f, 0x84c87814, 0x8cc70208, 0x90befffa, 0xa4506ceb, 0xbef9a3f7,
   0xc67178f2]

/-- The initial hash value `init0 .. init7`. -/
def init : List Nat :=
  [0x6A09E667, 0xBB67AE85, 0x3C6EF372, 0xA54FF53A, 0x510E527F, 0x9B05688C, 0x1F83D9AB,
   0x5BE0CD19]

/-- Truncation to a `uint32`. -/
def u32 (x : Nat) : Nat := x % 2 ^ 32

/-- The rotation `bits.RotateLeft32(x, -n)` of a `uint32`, for `0 < n < 32`. -/
def rotr (x n : Nat) : Nat := u32 (x >>> n ||| x <<< (32 - n))

/-- The message schedule of `blockGeneric`, most recent word first: `ws` holds
`w[i-1], w[i-2], ..., w[0]` and `n` more words are appended,
`w[i] = t1 + w[i-7] + t2 + w[i-16]`. -/
def schedule : Nat → List Nat → List Nat
  | 0, ws => ws
  | n + 1, ws =>
    let v1 := ws.getD 1 0
    let t1 := rotr v1 17 ^^^ rotr v1 19 ^^^ v1 >>> 10
    let v2 := ws.getD 14 0
    let t2 := rotr v2 7 ^^^ rotr v2 18 ^^^ v2 >>> 3
    schedule n (u32 (t1 + ws.getD 6 0 + t2 + ws.getD 15 0) :: ws)

/-- The eight working variables `a .. h` of `blockGeneric`. -/
structure Vars where
  a : Nat
  b : Nat
  c : Nat
  d : Nat
  e : Nat
  f : Nat
  g : Nat
  h : Nat
deriving DecidableEq

/-- One round of the compression loop of `blockGeneric`, with round constant `k` and
schedule word `w`. -/
def round (v : Vars) (k w : Nat) : Vars :=
  let t1 := u32 (v.h + (rotr v.e 6 ^^^ rotr v.e 11 ^^^ rotr v.e 25) +
    (v.e &&& v.f ^^^ (v.e ^^^ 0xFFFFFFFF) &&& v.g) + k + w)
  let t2 := u32 ((rotr v.a 2 ^^^ rotr v.a 13 ^^^ rotr v.a 22) +
    (v.a &&& v.b ^^^ v.a &&& v.c ^^^ v.b &&& v.c))
  ⟨u32 (t1 + t2), v.a, v.b, v.c, u32 (v.d + t1), v.e, v.f, v.g⟩

/-- The 64 rounds: `for i := 0; i < 64; i++`, over the constants and schedule words. -/
def rounds : Vars → List Nat → List Nat → Vars
  | v, k :: ks, w :: ws => rounds (round v k w) ks ws
  | v, _, _ => v

/-- The big-endian `uint32` words of a byte sequence, four bytes a word. -/
def beWords : List Nat → List Nat
  | a :: b :: c :: d :: rest => (a <<< 24 ||| b <<< 16 ||| c <<< 8 ||| d) :: beWords rest
  | _ => []

/-- The body of `blockGeneric` for one 64-byte chunk `p`: the new digest state. -/
def block (hs : List Nat) (p : List Nat) : List Nat :=
  let w := (schedule 48 (beWords p).reverse).reverse
  let v := rounds ⟨hs.getD 0 0, hs.getD 1 0, hs.getD 2 0, hs.getD 3 0, hs.getD 4 0,
    hs.getD 5 0, hs.getD 6 0, hs.getD 7 0⟩ _K w
  [u32 (hs.getD 0 0 + v.a), u32 (hs.getD 1 0 + v.b), u32 (hs.getD 2 0 + v.c),
   u32 (hs.getD 3 0 + v.d), u32 (hs.getD 4 0 + v.e), u32 (hs.getD 5 0 + v.f),
   u32 (hs.getD 6 0 + v.g), u32 (hs.getD 7 0 + v.h)]

/-- The loop `for len(p) >= chunk` of `blockGeneric`, over `n` chunks of 64 bytes. -/
def blockGeneric : Nat → List Nat → List Nat → List Nat
  | 0, hs, _ => hs
  | n + 1, hs, p => blockGeneric n (block hs (p.take 64)) (p.drop 64)

/-- The big-endian bytes of a `uint64`. -/
def be64 (x : Nat) : List Nat :=
  [x >>> 56 % 256, x >>> 48 % 256, x >>> 40 % 256, x >>> 32 % 256, x >>> 24 % 256,
   x >>> 16 % 256, x >>> 8 % 256, x % 256]

/-- The padding of `checkSum`: the byte `0x80`, zero bytes up to 56 modulo 64, and the
length of the message in bits as a big-endian `uint64`. -/
def padding (len : Nat) : List Nat :=
  0x80 :: List.replicate ((if len % 64 < 56 then 56 - len % 64 else 64 + 56 - len % 64) - 1) 0
    ++ be64 (len <<< 3 % 2 ^ 64)

/-- The big-endian bytes of a `uint32`. -/
def be32 (x : Nat) : Bytes :=
  [Fin.ofNat (x >>> 24), Fin.ofNat (x >>> 16), Fin.ofNat (x >>> 8), Fin.ofNat x]

/-- Model of `sha256.New()`, `Write(data)`, `Sum(nil)`: the SHA-256 digest, 32 bytes. -/
def sha256 (data : Bytes) : Bytes :=
  let p := data.map Fin.val ++ padding data.length
  let hs := blockGeneric (p.length / 64) init p
  be32 (hs.getD 0 0) ++ be32 (hs.getD 1 0) ++ be32 (hs.getD 2 0) ++ be32 (hs.getD 3 0) ++
    be32 (hs.getD 4 0) ++ be32 (hs.getD 5 0) ++ be32 (hs.getD 6 0) ++ be32 (hs.getD 7 0)

/-! ## package crypto/hmac -/

/-- The block size of SHA-256 in bytes. -/
def BlockSize : Nat := 64

/-- The key as `hmac.New` lays it out in `ipad` and `opad` before the xor: a key longer
than a block is hashed, and `copy` leaves the rest of the block zero. -/
def padKey (key : Bytes) : Bytes :=
  let k := if key.length > BlockSize then sha256 key else key
  k ++ List.replicate (BlockSize - k.length) 0

/-- The loops `ipad[i] ^= 0x36` and `opad[i] ^= 0x5c`. -/
def xorPad (pad : Bytes) (x : Nat) : Bytes := pad.map (fun b => Fin.ofNat (b.val ^^^ x))

/-- Model of `mac := hmac.New(sha256.New, key); mac.Write(msg); mac.Sum(nil)`. -/
def hmacSHA256 (key msg : Bytes) : Bytes :=
  sha256 (xorPad (padKey key) 0x5c ++ sha256 (xorPad (padKey key) 0x36 ++ msg))

/-! ## package jws -/

/-- An error value of `encoding/json`, identified by its message. -/
structure JsonError where
  /-- The message `err.Error()`. -/
  msg : String
deriving DecidableEq

/-- The Go `error` values that `Encode` and `Decode` return. The first three are made
by `errors.New` in this package, the last is passed on from `encoding/json`. -/
inductive Error where
  /-- The token does not split into three parts. -/
  | incomplete
  /-- The key is the empty string. -/
  | emptyKey
  /-- The signature of the token is not the one computed from its first two parts. -/
  | authFailed
  /-- An error of `json.Marshal` or `json.Unmarshal`. -/
  | json (e : JsonError)
deriving DecidableEq

/-- The message `err.Error()`. -/
def Error.message : Error → String
  | .incomplete =>
    "jws: incomplete signature does not contain 3 parts, header, payload and signed signature"
  | .emptyKey => "jws: key can not be empty"
  | .authFailed => "jws: signature authentication failed"
  | .json e => e.msg

/-- The function `jwsHeader`. -/
def jwsHeader : Bytes :=
  let json := ascii "\x7b\"alg\":\"HS256\"\x7d"
  let data := json
  EncodeToString data

/-- The function `jwsPayload`; `Marshal` is `json.Marshal` at the type of `v`, with its
two results. The results of `jwsPayload` are named, so `payload` is `""` when an error
is returned. -/
def jwsPayload {α : Type} (Marshal : α → Bytes × Option JsonError) (v : α) :
    Bytes × Option Error :=
  match Marshal v with
  | (_, some err) => ([], some (.json err))
  | (jsonToken, none) => (EncodeToString jsonToken, none)

/-- The function `sign`. `mac.Write` of an HMAC never returns an error, so the second
`return` of the source is not reached. -/
def sign (key header payload : Bytes) : Bytes × Option Error :=
  if key = [] then ([], some .emptyKey)
  else
    let unsigned := header ++ dot :: payload
    let singedBytes := hmacSHA256 key unsigned
    (EncodeToString singedBytes, none)

/-- The function `Encode`; `Marshal` is `json.Marshal` at the type of `payload`. The
result is the pair `(jws, err)`; `jws` is `""` on the two early returns. -/
def Encode {α : Type} (Marshal : α → Bytes × Option JsonError) (key : Bytes) (payload : α) :
    Bytes × Option Error :=
  let signatureParts : List Bytes := [jwsHeader]
  match jwsPayload Marshal payload with
  | (_, some err) => ([], some err)
  | (payloadStr, none) =>
    let signatureParts := signatureParts ++ [payloadStr]
    match sign key (signatureParts.getD 0 []) (signatureParts.getD 1 []) with
    | (_, some err) => ([], some err)
    | (signature, none) =>
      let signatureParts := signatureParts ++ [signature]
      (Join signatureParts dot, none)

/-- The function `Decode`; `Unmarshal data v` is `json.Unmarshal(data, payload)` where
`payload` points to the value `v`: it gives the value pointed to afterwards and the
error. The result of `Decode` is the value `payload` points to afterwards and the
error returned. The error of `DecodeString` is overwritten by that of
`json.Unmarshal` without having been read, only the bytes are used. -/
def Decode {α : Type} (Unmarshal : Bytes → α → α × Option JsonError) (key jws : Bytes)
    (payload : α) : α × Option Error :=
  let signatureParts := Split jws dot
  if signatureParts.length ≠ 3 then (payload, some .incomplete)
  else
    match sign key (signatureParts.getD 0 []) (signatureParts.getD 1 []) with
    | (_, some err) => (payload, some err)
    | (signature, none) =>
      if signature ≠ signatureParts.getD 2 [] then (payload, some .authFailed)
      else
        let unmarshaledPayload := (DecodeString (signatureParts.getD 1 [])).1
        match Unmarshal unmarshaledPayload payload with
        | (v, some err) => (v, some (.json err))
        | (v, none) => (v, none)

/-! ## The payload of the tests: `Token`

`jws_test.go` encodes and decodes a `Token`. The two functions below model
`json.Marshal` and `json.Unmarshal` at this type. -/

/-- The struct `Token` of `jws_test.go`: three `int64` fields with the JSON names
`sub`, `iat` and `exp`. -/
structure Token where
  UserID : Int
  CreatedAt : Int
  ExpiresAt : Int
deriving DecidableEq

/-- The loop of `strconv.formatBits` in base 10: the decimal digits of `u` are written
from the right, in front of `ds`: `for u >= 10` one digit `'0' + u % 10` is written and
`u` becomes `u / 10`, then the last digit `'0' + u`. `fuel` bounds the number of
digits; `u + 1` is enough. -/
def formatBits : Nat → Nat → Bytes → Bytes
  | 0, _, ds => ds
  | fuel + 1, u, ds =>
    if 10 ≤ u then formatBits fuel (u / 10) (Fin.ofNat (48 + u % 10) :: ds)
    else Fin.ofNat (48 + u) :: ds

/-- The decimal text of an integer, `strconv.AppendInt(b, v, 10)`: a `'-'` for a
negative number, then the digits of its absolute value. -/
def appendInt (v : Int) : Bytes :=
  let digits : Bytes := formatBits (v.natAbs + 1) v.natAbs []
  if v < 0 then 45 :: digits else digits

/-- Model of `json.Marshal` at `Token`: the object
`\x7b"sub":UserID,"iat":CreatedAt,"exp":ExpiresAt\x7d`; it does not fail. -/
def tokenMarshal (t : Token) : Bytes × Option JsonError :=
  (ascii "\x7b\"sub\":" ++ appendInt t.UserID ++ ascii ",\"iat\":" ++
    appendInt t.CreatedAt ++ ascii ",\"exp\":" ++ appendInt t.ExpiresAt ++ ascii "\x7d", none)

/-- JSON white space: space, tab, line feed, carriage return. -/
def isSpace (c : Byte) : Bool := c = 32 ∨ c = 9 ∨ c = 10 ∨ c = 13

/-- Skip JSON white space. -/
def skipSpace : Bytes → Bytes
  | [] => []
  | c :: cs => if isSpace c then skipSpace cs else c :: cs

/-- The rest of a JSON string after its opening quote, for a string of printable ASCII
characters without escapes: its content and what follows the closing quote. -/
def scanKey : Bytes → Option (Bytes × Bytes)
  | [] => none
  | c :: cs =>
    if c = 34 then some ([], cs)
    else if c = 92 ∨ c.val < 32 ∨ 127 ≤ c.val then none
    else
      match scanKey cs with
      | none => none
      | some (k, rest) => some (c :: k, rest)

/-- The leading decimal digits of the input as a number, how many there are, and the
rest of the input. -/
def scanDigits : Nat → Nat → Bytes → Nat × Nat × Bytes
  | acc, n, [] => (acc, n, [])
  | acc, n, c :: cs =>
    if 48 ≤ c.val ∧ c.val ≤ 57 then scanDigits (10 * acc + (c.val - 48)) (n + 1) cs
    else (acc, n, c :: cs)

/-- The digits of a JSON integer literal after the optional sign: `0`, or a nonzero
digit followed by digits. -/
def scanNat : Bytes → Option (Nat × Bytes)
  | [] => none
  | c :: cs =>
    if c = 48 then some (0, cs)
    else if 49 ≤ c.val ∧ c.val ≤ 57 then
      let r := scanDigits (c.val - 48) 1 cs
      some (r.1, r.2.2)
    else none

/-- A JSON integer literal, `-?(0|[1-9][0-9]*)`, and the rest of the input. -/
def scanInt : Bytes → Option (Int × Bytes)
  | [] => none
  | c :: cs =>
    if c = 45 then
      match scanNat cs with
      | none => none
      | some (n, rest) => some (-(n : Int), rest)
    else
      match scanNat (c :: cs) with
      | none => none
      | some (n, rest) => some ((n : Int), rest)

/-- The members of a JSON object after a member has been read (`first = false`) or
after the opening brace (`first = true`), up to the closing brace, and the rest of
the input. Keys are as in `scanKey`, values are integer literals. `fuel` bounds the
number of members. -/
def scanMembers : Nat → Bool → Bytes → Option (List (Bytes × Int) × Bytes)
  | 0, _, _ => none
  | fuel + 1, first, s =>
    match skipSpace s with
    | [] => none
    | c :: cs =>
      if c = 125 ∧ first then some ([], cs)
      else
        match (if first then some (c :: cs) else if c = 44 then some (skipSpace cs) else none)
        with
        | none => none
        | some s1 =>
          match s1 with
          | [] => none
          | q :: s2 =>
            if q ≠ 34 then none
            else
              match scanKey s2 with
              | none => none
              | some (k, s3) =>
                match skipSpace s3 with
                | [] => none
                | colon :: s4 =>
                  if colon ≠ 58 then none
                  else
                    match scanInt (skipSpace s4) with
                    | none => none
                    | some (v, s5) =>
                      match skipSpace s5 with
                      | [] => none
                      | d :: s6 =>
                        if d = 125 then some ([(k, v)], s6)
                        else
                          match scanMembers fuel false (d :: s6) with
                          | none => none
                          | some (ms, rest) => some ((k, v) :: ms, rest)

/-- A JSON text of the modelled fragment: white space, one object with keys as in
`scanKey` and integer literals as values, white space. -/
def scanObject (data : Bytes) : Option (List (Bytes × Int)) :=
  match skipSpace data with
  | [] => none
  | c :: cs =>
    if c ≠ 123 then none
    else
      match scanMembers (data.length + 1) true cs with
      | none => none
      | some (ms, rest) => if skipSpace rest = [] then some ms else none

/-- ASCII lower case of a byte. -/
def lower (c : Byte) : Byte := if 65 ≤ c.val ∧ c.val ≤ 90 then Fin.ofNat (c.val + 32) else c

/-- Store one member in a `Token`. A key names a field when it equals the JSON name of
the field up to ASCII case. A value outside the range of `int64` is not stored and
gives an `UnmarshalTypeError`; a key that names no field is skipped. -/
def storeMember (t : Token × Option JsonError) (m : Bytes × Int) : Token × Option JsonError :=
  let key := m.1.map lower
  if key = ascii "sub" ∨ key = ascii "iat" ∨ key = ascii "exp" then
    if -(2 : Int) ^ 63 ≤ m.2 ∧ m.2 < (2 : Int) ^ 63 then
      if key = ascii "sub" then ({ t.1 with UserID := m.2 }, t.2)
      else if key = ascii "iat" then ({ t.1 with CreatedAt := m.2 }, t.2)
      else ({ t.1 with ExpiresAt := m.2 }, t.2)
    else
      (t.1, t.2.or (some ⟨"json: cannot unmarshal number into Go struct field of type int64"⟩))
  else t

/-- Model of `json.Unmarshal` into a `*Token`, on the fragment of JSON of `scanObject`:
the members are stored in the order of the text, fields that the text does not name keep
their value, and the first error is returned after all members have been stored. On
any other input, valid JSON or not, the model leaves the token as it is and returns
an error, as `json.Unmarshal` does for a text that is not valid JSON. -/
def tokenUnmarshal (data : Bytes) (t : Token) : Token × Option JsonError :=
  match scanObject data with
  | none => (t, some ⟨"json: syntax error, or a JSON text outside the modelled fragment"⟩)
  | some ms => ms.foldl storeMember (t, none)

/-- Model of `json.Marshal` at a channel type such as `chan int`: `encoding/json` does
not support channels and returns an `UnsupportedTypeError`. The value of the channel
plays no part and is modelled by `Unit`. -/
def chanMarshal (_ : Unit) : Bytes × Option JsonError :=
  ([], some ⟨"json: unsupported type: chan int"⟩)

/-- Model of `strings.HasPrefix(s, prefix)`. -/
def HasPrefix : Bytes → Bytes → Bool
  | _, [] => true
  | [], _ :: _ => false
  | c :: cs, d :: ds => c = d && HasPrefix cs ds

/-- Model of `strings.Contains(s, substr)`: `substr` starts at some position of `s`. -/
def Contains : Bytes → Bytes → Bool
  | [], substr => HasPrefix [] substr
  | c :: cs, substr => HasPrefix (c :: cs) substr || Contains cs substr

/-! ## Lemmas: strings -/

theorem Split_ne_nil (s : Bytes) (sep : Byte) : Split s sep ≠ [] := by
  induction s with
  | nil => simp [Split]
  | cons c cs ih =>
    unfold Split
    split
    · simp
    · split <;> simp

theorem Split_of_not_mem (s : Bytes) (sep : Byte) (h : sep ∉ s) : Split s sep = [s] := by
  induction s with
  | nil => simp [Split]
  | cons c cs ih =>
    have hc : c ≠ sep := fun e => h (by simp [e])
    have hcs : sep ∉ cs := fun e => h (by simp [e])
    simp [Split, hc, ih hcs]

theorem Split_append (a b : Bytes) (sep : Byte) (h : sep ∉ a) :
    Split (a ++ sep :: b) sep = a :: Split b sep := by
  induction a with
  | nil => simp [Split]
  | cons c cs ih =>
    have hc : c ≠ sep := fun e => h (by simp [e])
    have hcs : sep ∉ cs := fun e => h (by simp [e])
    simp [Split, hc, ih hcs]

theorem Split_length (s : Bytes) (sep : Byte) : (Split s sep).length = Count s sep + 1 := by
  induction s with
  | nil => simp [Split, Count]
  | cons c cs ih =>
    unfold Split
    by_cases hc : c = sep
    · subst hc
      simp [ih, Count]
    · have hc2 : ¬ (c == sep) = true := by simpa using hc
      simp only [hc, if_false]
      have hne := Split_ne_nil cs sep
      cases hs : Split cs sep with
      | nil => exact absurd hs hne
      | cons p ps =>
        rw [hs] at ih
        simp [Count, List.count_cons, hc2] at ih ⊢
        simpa [Count] using ih

theorem Split_three (h p s : Bytes) (hh : dot ∉ h) (hp : dot ∉ p) (hs : dot ∉ s) :
    Split (h ++ dot :: (p ++ dot :: s)) dot = [h, p, s] := by
  rw [Split_append _ _ _ hh, Split_append _ _ _ hp, Split_of_not_mem _ _ hs]

/-! ## Lemmas: base64 -/

theorem lor_eq_add (i a b : Nat) (hb : b < 2 ^ i) : a <<< i ||| b = a * 2 ^ i + b := by
  rw [Nat.shiftLeft_eq, Nat.mul_comm a]
  exact (Nat.mul_add_lt_is_or hb a).symm

theorem lor3 (a b c : Nat) (hb : b < 256) (hc : c < 256) :
    a <<< 16 ||| b <<< 8 ||| c = a * 65536 + b * 256 + c := by
  have h1 : a <<< 16 ||| b <<< 8 = (a * 256 + b) <<< 8 := by
    rw [lor_eq_add 16 a _ (by rw [Nat.shiftLeft_eq]; omega), Nat.shiftLeft_eq, Nat.shiftLeft_eq]
    omega
  rw [h1, lor_eq_add 8 _ c (by omega)]
  omega

theorem lor4 (a b c d : Nat) (hb : b < 64) (hc : c < 64) (hd : d < 64) :
    a <<< 18 ||| b <<< 12 ||| c <<< 6 ||| d = a * 262144 + b * 4096 + c * 64 + d := by
  have h1 : a <<< 18 ||| b <<< 12 = (a * 64 + b) <<< 12 := by
    rw [lor_eq_add 18 a _ (by rw [Nat.shiftLeft_eq]; omega), Nat.shiftLeft_eq, Nat.shiftLeft_eq]
    omega
  have h2 : (a * 64 + b) <<< 12 ||| c <<< 6 = ((a * 64 + b) * 64 + c) <<< 6 := by
    rw [lor_eq_add 12 _ _ (by rw [Nat.shiftLeft_eq]; omega), Nat.shiftLeft_eq, Nat.shiftLeft_eq]
    omega
  rw [h1, h2, lor_eq_add 6 _ d (by omega)]
  omega

theorem sextet (x k : Nat) : x >>> k &&& 0x3F = x / 2 ^ k % 64 := by
  rw [Nat.shiftRight_eq_div_pow]
  exact Nat.and_pow_two_sub_one_eq_mod _ 6

theorem sextet0 (x : Nat) : x &&& 0x3F = x % 64 := Nat.and_pow_two_sub_one_eq_mod _ 6

theorem decodeMap_encodeChar : ∀ i, i < 64 → decodeMap (encodeChar i) = i := by decide

theorem encodeChar_ne_dot : ∀ i, i < 64 → encodeChar i ≠ dot := by decide

theorem encodeChar_ne_newline : ∀ i, i < 64 → encodeChar i ≠ 10 ∧ encodeChar i ≠ 13 := by decide


theorem quantumBytes_three (a b c : Byte) :
    quantumBytes
      [(a.val <<< 16 ||| b.val <<< 8 ||| c.val) >>> 18 &&& 0x3F,
       (a.val <<< 16 ||| b.val <<< 8 ||| c.val) >>> 12 &&& 0x3F,
       (a.val <<< 16 ||| b.val <<< 8 ||| c.val) >>> 6 &&& 0x3F,
       (a.val <<< 16 ||| b.val <<< 8 ||| c.val) &&& 0x3F] 4 = [a, b, c] := by
  have ha := a.isLt
  have hb := b.isLt
  have hc := c.isLt
  simp only [quantumBytes, List.getD_cons_zero, List.getD_cons_succ, sextet, sextet0,
    lor3 _ _ _ hb hc]
  rw [lor4 _ _ _ _ (Nat.mod_lt _ (by decide)) (Nat.mod_lt _ (by decide))
    (Nat.mod_lt _ (by decide))]
  simp only [Nat.shiftRight_eq_div_pow, List.take, Nat.reduceSub]
  refine List.cons_eq_cons.2 ⟨?_, List.cons_eq_cons.2 ⟨?_, List.cons_eq_cons.2 ⟨?_, rfl⟩⟩⟩ <;>
  · apply Fin.ext
    simp only [Fin.ofNat, Nat.reducePow]
    omega

theorem quantumBytes_two (a b : Byte) :
    quantumBytes
      [(a.val <<< 16 ||| b.val <<< 8) >>> 18 &&& 0x3F,
       (a.val <<< 16 ||| b.val <<< 8) >>> 12 &&& 0x3F,
       (a.val <<< 16 ||| b.val <<< 8) >>> 6 &&& 0x3F] 3 = [a, b] := by
  have ha := a.isLt
  have hb := b.isLt
  have h0 : a.val <<< 16 ||| b.val <<< 8 = a.val * 65536 + b.val * 256 := by
    rw [lor_eq_add 16 _ _ (by rw [Nat.shiftLeft_eq]; omega), Nat.shiftLeft_eq]
    omega
  simp only [quantumBytes, List.getD_cons_zero, List.getD_cons_succ, List.getD_nil, sextet, h0]
  rw [lor4 _ _ _ _ (Nat.mod_lt _ (by decide)) (Nat.mod_lt _ (by decide)) (by decide)]
  simp only [Nat.shiftRight_eq_div_pow, List.take, Nat.reduceSub]
  refine List.cons_eq_cons.2 ⟨?_, List.cons_eq_cons.2 ⟨?_, rfl⟩⟩ <;>
  · apply Fin.ext
    simp only [Fin.ofNat, Nat.reducePow]
    omega

theorem quantumBytes_one (a : Byte) :
    quantumBytes [(a.val <<< 16) >>> 18 &&& 0x3F, (a.val <<< 16) >>> 12 &&& 0x3F] 2 = [a] := by
  have ha := a.isLt
  have h0 : a.val <<< 16 = a.val * 65536 := by
    rw [Nat.shiftLeft_eq]
  simp only [quantumBytes, List.getD_cons_zero, List.getD_cons_succ, List.getD_nil, sextet, h0]
  rw [lor4 _ _ _ _ (Nat.mod_lt _ (by decide)) (by decide) (by decide)]
  simp only [Nat.shiftRight_eq_div_pow, List.take, Nat.reduceSub]
  refine List.cons_eq_cons.2 ⟨?_, rfl⟩
  apply Fin.ext
  simp only [Fin.ofNat, Nat.reducePow]
  omega

theorem decodeLoop_char (i j : Nat) (dbuf : List Nat) (rest : Bytes) (hi : i < 64)
    (hj : j < 3) :
    decodeLoop j dbuf (encodeChar i :: rest) = decodeLoop (j + 1) (dbuf ++ [i]) rest := by
  have h := decodeMap_encodeChar i hi
  have hne : decodeMap (encodeChar i) ≠ 0xFF := by omega
  rw [decodeLoop, if_pos hne, if_pos hj, h]

theorem decodeLoop_last (i : Nat) (dbuf : List Nat) (rest : Bytes) (hi : i < 64) :
    decodeLoop 3 dbuf (encodeChar i :: rest) =
      (quantumBytes (dbuf ++ [i]) 4 ++ (decodeLoop 0 [] rest).1, (decodeLoop 0 [] rest).2) := by
  have h := decodeMap_encodeChar i hi
  have hne : decodeMap (encodeChar i) ≠ 0xFF := by omega
  rw [decodeLoop, if_pos hne, if_neg (by decide), h]

theorem decodeLoop_pad2 (dbuf : List Nat) :
    decodeLoop 2 dbuf [padChar, padChar] = (quantumBytes dbuf 2, false) := by
  simp [decodeLoop, skipNewlines, padChar, decodeMap, encodeStd]

theorem decodeLoop_pad3 (dbuf : List Nat) :
    decodeLoop 3 dbuf [padChar] = (quantumBytes dbuf 3, false) := by
  simp [decodeLoop, skipNewlines, padChar, decodeMap, encodeStd]

theorem sextet_lt (x k : Nat) : x >>> k &&& 0x3F < 64 := by
  rw [sextet]
  exact Nat.mod_lt _ (by decide)

theorem sextet0_lt (x : Nat) : x &&& 0x3F < 64 := by
  rw [sextet0]
  exact Nat.mod_lt _ (by decide)

/-- Decoding what `EncodeToString` produced gives the bytes back, without an error. -/
theorem DecodeString_EncodeToString (bs : Bytes) :
    DecodeString (EncodeToString bs) = (bs, false) := by
  unfold DecodeString
  induction bs using EncodeToString.induct with
  | case1 => rfl
  | case2 a =>
    simp only [EncodeToString]
    rw [decodeLoop_char _ _ _ _ (sextet_lt _ _) (by decide),
      decodeLoop_char _ _ _ _ (sextet_lt _ _) (by decide), decodeLoop_pad2]
    simp only [List.nil_append, List.cons_append, Nat.zero_add, Nat.reduceAdd]
    rw [quantumBytes_one]
  | case3 a b =>
    simp only [EncodeToString]
    rw [decodeLoop_char _ _ _ _ (sextet_lt _ _) (by decide),
      decodeLoop_char _ _ _ _ (sextet_lt _ _) (by decide),
      decodeLoop_char _ _ _ _ (sextet_lt _ _) (by decide), decodeLoop_pad3]
    simp only [List.nil_append, List.cons_append, Nat.zero_add, Nat.reduceAdd]
    rw [quantumBytes_two]
  | case4 a b c rest ih =>
    simp only [EncodeToString]
    rw [decodeLoop_char _ _ _ _ (sextet_lt _ _) (by decide),
      decodeLoop_char _ _ _ _ (sextet_lt _ _) (by decide),
      decodeLoop_char _ _ _ _ (sextet_lt _ _) (by decide),
      decodeLoop_last _ _ _ (sextet0_lt _), ih]
    simp only [List.nil_append, List.cons_append, Nat.zero_add, Nat.reduceAdd]
    rw [quantumBytes_three]
    rfl

theorem EncodeToString_injective (a b : Bytes) (h : EncodeToString a = EncodeToString b) :
    a = b := by
  have ha := DecodeString_EncodeToString a
  rw [h, DecodeString_EncodeToString] at ha
  exact (Prod.mk.inj ha).1.symm

theorem padChar_ne_dot : padChar ≠ dot := by decide

theorem dot_not_mem_EncodeToString (bs : Bytes) : dot ∉ EncodeToString bs := by
  induction bs using EncodeToString.induct with
  | case1 => simp [EncodeToString]
  | case2 a =>
    simp only [EncodeToString, List.mem_cons, List.mem_singleton, not_or, List.not_mem_nil,
      or_false]
    exact ⟨(encodeChar_ne_dot _ (sextet_lt _ _)).symm, (encodeChar_ne_dot _ (sextet_lt _ _)).symm,
      padChar_ne_dot.symm, padChar_ne_dot.symm⟩
  | case3 a b =>
    simp only [EncodeToString, List.mem_cons, List.mem_singleton, not_or, List.not_mem_nil,
      or_false]
    exact ⟨(encodeChar_ne_dot _ (sextet_lt _ _)).symm, (encodeChar_ne_dot _ (sextet_lt _ _)).symm,
      (encodeChar_ne_dot _ (sextet_lt _ _)).symm, padChar_ne_dot.symm⟩
  | case4 a b c rest ih =>
    simp only [EncodeToString, List.mem_cons, not_or]
    exact ⟨(encodeChar_ne_dot _ (sextet_lt _ _)).symm, (encodeChar_ne_dot _ (sextet_lt _ _)).symm,
      (encodeChar_ne_dot _ (sextet_lt _ _)).symm, (encodeChar_ne_dot _ (sextet0_lt _)).symm, ih⟩

theorem EncodeToString_length (bs : Bytes) :
    (EncodeToString bs).length = (bs.length + 2) / 3 * 4 := by
  induction bs using EncodeToString.induct with
  | case1 => rfl
  | case2 a => simp [EncodeToString]
  | case3 a b => simp [EncodeToString]
  | case4 a b c rest ih =>
    simp only [EncodeToString, List.length_cons, ih]
    omega

/-! ## Lemmas: the signature -/

theorem sha256_length (data : Bytes) : (sha256 data).length = 32 := by
  simp [sha256, be32]

theorem hmacSHA256_length (key msg : Bytes) : (hmacSHA256 key msg).length = 32 :=
  sha256_length _

theorem sign_nil (header payload : Bytes) : sign [] header payload = ([], some .emptyKey) := by
  simp [sign]

theorem sign_of_ne_nil (key header payload : Bytes) (hkey : key ≠ []) :
    sign key header payload =
      (EncodeToString (hmacSHA256 key (header ++ dot :: payload)), none) := by
  simp [sign, hkey]

theorem sign_length (key header payload : Bytes) (hkey : key ≠ []) :
    (sign key header payload).1.length = 44 := by
  rw [sign_of_ne_nil _ _ _ hkey]
  simp [EncodeToString_length, hmacSHA256_length]

theorem dot_not_mem_jwsHeader : dot ∉ jwsHeader := dot_not_mem_EncodeToString _

/-! ## Lemmas: `Encode` and `Decode` -/

/-- The result of `Encode` for a non-empty key and a payload that `json.Marshal`
encodes as `b`. -/
theorem Encode_of_ok {α : Type} (Marshal : α → Bytes × Option JsonError) (key : Bytes)
    (p : α) (b : Bytes) (hkey : key ≠ []) (hm : Marshal p = (b, none)) :
    Encode Marshal key p =
      (jwsHeader ++ dot :: (EncodeToString b ++ dot ::
        EncodeToString (hmacSHA256 key (jwsHeader ++ dot :: EncodeToString b))), none) := by
  simp [Encode, jwsPayload, hm, sign_of_ne_nil _ _ _ hkey, Join]

/-- The result of `Decode` on a token that does not split into three parts. -/
theorem Decode_of_not_three {α : Type} (Unmarshal : Bytes → α → α × Option JsonError)
    (key jws : Bytes) (out : α) (h : (Split jws dot).length ≠ 3) :
    Decode Unmarshal key jws out = (out, some .incomplete) := by
  simp [Decode, h]

/-- The result of `Decode` with the empty key on a token of three parts. -/
theorem Decode_nil_of_three {α : Type} (Unmarshal : Bytes → α → α × Option JsonError)
    (jws : Bytes) (out : α) (h : (Split jws dot).length = 3) :
    Decode Unmarshal [] jws out = (out, some .emptyKey) := by
  simp [Decode, h, sign_nil]

/-- The result of `Decode` with a non-empty key on a token whose three parts are `h`,
`p` and `s`. -/
theorem Decode_of_three {α : Type} (Unmarshal : Bytes → α → α × Option JsonError)
    (key jws h p s : Bytes) (out : α) (hkey : key ≠ []) (hs : Split jws dot = [h, p, s]) :
    Decode Unmarshal key jws out =
      if EncodeToString (hmacSHA256 key (h ++ dot :: p)) ≠ s then (out, some .authFailed)
      else
        match Unmarshal (DecodeString p).1 out with
        | (v, some err) => (v, some (.json err))
        | (v, none) => (v, none) := by
  simp only [Decode, hs, sign_of_ne_nil _ _ _ hkey]
  simp

/-- The parts of a token made of a header without `'.'` and two base64 segments. -/
theorem Split_token (h b tag : Bytes) (hh : dot ∉ h) :
    Split (h ++ dot :: (EncodeToString b ++ dot :: EncodeToString tag)) dot =
      [h, EncodeToString b, EncodeToString tag] :=
  Split_three _ _ _ hh (dot_not_mem_EncodeToString _) (dot_not_mem_EncodeToString _)

/-! ## Theorems -/

/-- C1. Round trip: for a non-empty key `key` and a payload `p` that `json.Marshal`
encodes as `b` and `json.Unmarshal` reads back from `b` into `out` without loss,
`Encode` succeeds with a token `t`, and `Decode` of `t` under the same key returns no
error and leaves `out` equal to `p`. -/
theorem Decode_Encode_roundtrip {α : Type} (Marshal : α → Bytes × Option JsonError)
    (Unmarshal : Bytes → α → α × Option JsonError) (key : Bytes) (p out : α) (b : Bytes)
    (hkey : key ≠ []) (hm : Marshal p = (b, none)) (hu : Unmarshal b out = (p, none)) :
    ∃ t, Encode Marshal key p = (t, none) ∧ Decode Unmarshal key t out = (p, none) := by
  refine ⟨_, Encode_of_ok Marshal key p b hkey hm, ?_⟩
  rw [Decode_of_three Unmarshal key _ _ _ _ out hkey (Split_token _ _ _ dot_not_mem_jwsHeader)]
  simp [DecodeString_EncodeToString, hu]

/-- Witness of C1: the key `"abcd"` and the `Token` with `sub = 23`, `iat = 1000`,
`exp = 2000`, decoded into a zero `Token`. -/
theorem Decode_Encode_roundtrip_witness :
    ascii "abcd" ≠ [] ∧
    tokenMarshal ⟨23, 1000, 2000⟩ =
      (ascii "\x7b\"sub\":23,\"iat\":1000,\"exp\":2000\x7d", none) ∧
    tokenUnmarshal (ascii "\x7b\"sub\":23,\"iat\":1000,\"exp\":2000\x7d") ⟨0, 0, 0⟩ =
      (⟨23, 1000, 2000⟩, none) ∧
    ∃ t, Encode tokenMarshal (ascii "abcd") (⟨23, 1000, 2000⟩ : Token) = (t, none) ∧
      Decode tokenUnmarshal (ascii "abcd") t ⟨0, 0, 0⟩ = (⟨23, 1000, 2000⟩, none) :=
  ⟨by decide, by decide!, by decide!,
    Decode_Encode_roundtrip tokenMarshal tokenUnmarshal (ascii "abcd") ⟨23, 1000, 2000⟩
      ⟨0, 0, 0⟩ (ascii "\x7b\"sub\":23,\"iat\":1000,\"exp\":2000\x7d") (by decide)
      (by decide!) (by decide!)⟩

theorem padKey_append_zero (key : Bytes) (h : key.length < 64) :
    padKey (key ++ [0]) = padKey key := by
  have h1 : ¬ (key ++ [0]).length > BlockSize := by
    simp only [List.length_append, List.length_singleton, BlockSize]
    omega
  have h2 : ¬ key.length > BlockSize := by
    simp only [BlockSize]
    omega
  unfold padKey
  simp only [if_neg h1, if_neg h2]
  simp only [List.length_append, List.length_singleton, BlockSize, List.append_assoc]
  congr 1
  have h3 : 64 - key.length = (64 - (key.length + 1)) + 1 := by omega
  rw [h3, List.replicate_succ]
  rfl

/-- A key shorter than a block and the same key followed by a zero byte give the same
tag: `hmac.New` pads the key with zero bytes to the block size. -/
theorem hmacSHA256_append_zero (key msg : Bytes) (h : key.length < 64) :
    hmacSHA256 (key ++ [0]) msg = hmacSHA256 key msg := by
  simp only [hmacSHA256, padKey_append_zero key h]

theorem Split_of_length_three (jws : Bytes) (h : (Split jws dot).length = 3) :
    ∃ a b c, Split jws dot = [a, b, c] := by
  match hs : Split jws dot, h with
  | [a, b, c], _ => exact ⟨a, b, c, rfl⟩

/-- With a non-empty key, `Decode` of a token of three parts whose third part is not
the signature of the first two fails with the signature error and leaves `out`. -/
theorem Decode_of_three_ne {α : Type} (Unmarshal : Bytes → α → α × Option JsonError)
    (key jws h p s : Bytes) (out : α) (hkey : key ≠ []) (hs : Split jws dot = [h, p, s])
    (hne : EncodeToString (hmacSHA256 key (h ++ dot :: p)) ≠ s) :
    Decode Unmarshal key jws out = (out, some .authFailed) := by
  rw [Decode_of_three Unmarshal key jws h p s out hkey hs, if_pos hne]

/-- With a non-empty key, `Decode` of a token of three parts whose third part is the
signature of the first two returns what `json.Unmarshal` returns on the decoded
second part. -/
theorem Decode_of_three_eq {α : Type} (Unmarshal : Bytes → α → α × Option JsonError)
    (key jws h p s : Bytes) (out : α) (hkey : key ≠ []) (hs : Split jws dot = [h, p, s])
    (heq : EncodeToString (hmacSHA256 key (h ++ dot :: p)) = s) :
    Decode Unmarshal key jws out =
      ((Unmarshal (DecodeString p).1 out).1, (Unmarshal (DecodeString p).1 out).2.map .json) := by
  rw [Decode_of_three Unmarshal key jws h p s out hkey hs, if_neg (by simpa using heq)]
  rcases hu : Unmarshal (DecodeString p).1 out with ⟨v, _ | e⟩ <;> simp

/-- `Decode` never returns the error `incomplete` for a token of three parts. -/
theorem Decode_ne_incomplete {α : Type} (Unmarshal : Bytes → α → α × Option JsonError)
    (key jws : Bytes) (out : α) (h : (Split jws dot).length = 3) :
    (Decode Unmarshal key jws out).2 ≠ some .incomplete := by
  obtain ⟨a, b, c, hs⟩ := Split_of_length_three jws h
  by_cases hkey : key = []
  · subst hkey
    rw [Decode_nil_of_three Unmarshal jws out h]
    simp
  · by_cases hsig : EncodeToString (hmacSHA256 key (a ++ dot :: b)) = c
    · rw [Decode_of_three_eq Unmarshal key jws a b c out hkey hs hsig]
      cases (Unmarshal (DecodeString b).1 out).2 <;> simp
    · rw [Decode_of_three_ne Unmarshal key jws a b c out hkey hs hsig]
      simp

/-- Counterexample to C2: the keys `"abcd"` and `"abcd\x00"` are non-empty and
different, and the token that `Encode` makes under the first is decoded under the
second without an error. -/
theorem Decode_wrong_key_accepted :
    ascii "abcd" ≠ [] ∧ ascii "abcd\x00" ≠ [] ∧ ascii "abcd" ≠ ascii "abcd\x00" ∧
    Decode tokenUnmarshal (ascii "abcd\x00")
      (Encode tokenMarshal (ascii "abcd") (⟨23, 1000, 2000⟩ : Token)).1 ⟨0, 0, 0⟩ =
      (⟨23, 1000, 2000⟩, none) := by
  refine ⟨by decide, by decide, by decide, ?_⟩
  have hm : tokenMarshal ⟨23, 1000, 2000⟩ =
      (ascii "\x7b\"sub\":23,\"iat\":1000,\"exp\":2000\x7d", none) := by decide!
  have hk : ascii "abcd\x00" = ascii "abcd" ++ [0] := by decide
  rw [Encode_of_ok tokenMarshal _ _ _ (by decide) hm,
    Decode_of_three_eq tokenUnmarshal _ _ _ _ _ _ (by decide)
      (Split_token _ _ _ dot_not_mem_jwsHeader)
      (by rw [hk, hmacSHA256_append_zero _ _ (by decide)]),
    DecodeString_EncodeToString]
  decide!

/-- C2, amended. For non-empty keys `k1`, `k2` and a payload that `json.Marshal`
encodes, `Decode` under `k2` of the token made by `Encode` under `k1` fails with the
signature error, leaving `out`, exactly when the HMAC-SHA256 tags of the signing
input under the two keys differ. -/
theorem Decode_other_key {α : Type} (Marshal : α → Bytes × Option JsonError)
    (Unmarshal : Bytes → α → α × Option JsonError) (k1 k2 : Bytes) (p out : α) (b : Bytes)
    (h1 : k1 ≠ []) (h2 : k2 ≠ []) (hm : Marshal p = (b, none)) :
    Decode Unmarshal k2 (Encode Marshal k1 p).1 out = (out, some .authFailed) ↔
      hmacSHA256 k2 (jwsHeader ++ dot :: EncodeToString b) ≠
        hmacSHA256 k1 (jwsHeader ++ dot :: EncodeToString b) := by
  rw [Encode_of_ok Marshal k1 p b h1 hm]
  have hs := Split_token jwsHeader b (hmacSHA256 k1 (jwsHeader ++ dot :: EncodeToString b))
    dot_not_mem_jwsHeader
  constructor
  · intro hd heq
    rw [Decode_of_three_eq Unmarshal k2 _ _ _ _ out h2 hs (by rw [heq])] at hd
    have h3 := congrArg Prod.snd hd
    cases hu : (Unmarshal (DecodeString (EncodeToString b)).1 out).2 <;> simp [hu] at h3
  · intro hne
    exact Decode_of_three_ne Unmarshal k2 _ _ _ _ out h2 hs
      (fun e => hne (EncodeToString_injective _ _ e))

/-- Witness of C2, amended: the keys `"abcd"` and `"efgh"` of the tests give different
tags, and decoding under `"efgh"` fails with the signature error. -/
theorem Decode_other_key_witness :
    ascii "abcd" ≠ [] ∧ ascii "efgh" ≠ [] ∧
    tokenMarshal ⟨23, 1000, 2000⟩ =
      (ascii "\x7b\"sub\":23,\"iat\":1000,\"exp\":2000\x7d", none) ∧
    Decode tokenUnmarshal (ascii "efgh")
      (Encode tokenMarshal (ascii "abcd") (⟨23, 1000, 2000⟩ : Token)).1 ⟨0, 0, 0⟩ =
      (⟨0, 0, 0⟩, some .authFailed) :=
  ⟨by decide, by decide, by decide!,
    (Decode_other_key tokenMarshal tokenUnmarshal (ascii "abcd") (ascii "efgh")
      ⟨23, 1000, 2000⟩ ⟨0, 0, 0⟩ (ascii "\x7b\"sub\":23,\"iat\":1000,\"exp\":2000\x7d")
      (by decide) (by decide) (by decide!)).2 (by decide!)⟩

/-- C4. Structural validation: for every key, empty or not, and every token, `Decode`
returns the error `incomplete` ("does not contain 3 parts") if and only if splitting
the token on `'.'` does not give exactly three parts, that is, if and only if the token
does not contain exactly two `'.'`; `"a.b"` and `"a.b.c.d"` fail with this error. -/
theorem Decode_incomplete_iff {α : Type} (Unmarshal : Bytes → α → α × Option JsonError)
    (key jws : Bytes) (out : α) :
    ((Decode Unmarshal key jws out).2 = some .incomplete ↔ (Split jws dot).length ≠ 3) ∧
    ((Split jws dot).length ≠ 3 ↔ Count jws dot ≠ 2) ∧
    (Decode Unmarshal key (ascii "a.b") out).2 = some .incomplete ∧
    (Decode Unmarshal key (ascii "a.b.c.d") out).2 = some .incomplete := by
  refine ⟨⟨fun hd hl => Decode_ne_incomplete Unmarshal key jws out hl hd, fun hl => ?_⟩, ?_,
    ?_, ?_⟩
  · rw [Decode_of_not_three Unmarshal key jws out hl]
  · rw [Split_length]
    omega
  · rw [Decode_of_not_three Unmarshal key _ out (by decide)]
  · rw [Decode_of_not_three Unmarshal key _ out (by decide)]

/-- Counterexample to C5: under the key `"abcd"` the tokens `".."` and `".b.c"`, which
have two `'.'` and empty segments, fail with the signature error, not with the error
`incomplete`. -/
theorem Decode_empty_segments_authFailed :
    ascii "abcd" ≠ [] ∧ Count (ascii "..") dot = 2 ∧ Count (ascii ".b.c") dot = 2 ∧
    Split (ascii "..") dot = [[], [], []] ∧
    Split (ascii ".b.c") dot = [[], ascii "b", ascii "c"] ∧
    Decode tokenUnmarshal (ascii "abcd") (ascii "..") ⟨0, 0, 0⟩ =
      (⟨0, 0, 0⟩, some .authFailed) ∧
    Decode tokenUnmarshal (ascii "abcd") (ascii ".b.c") ⟨0, 0, 0⟩ =
      (⟨0, 0, 0⟩, some .authFailed) := by
  refine ⟨by decide, by decide, by decide, by decide, by decide, ?_, ?_⟩
  · refine Decode_of_three_ne tokenUnmarshal _ _ [] [] [] _ (by decide) (by decide) ?_
    intro e
    have := congrArg List.length e
    simp [EncodeToString_length, hmacSHA256_length] at this
  · refine Decode_of_three_ne tokenUnmarshal _ _ [] (ascii "b") (ascii "c") _ (by decide)
      (by decide) ?_
    intro e
    have := congrArg List.length e
    simp [EncodeToString_length, hmacSHA256_length, ascii] at this

/-- C5, amended. For a non-empty key and a token with exactly two `'.'`, with or without
empty segments, `Decode` does not fail with the error `incomplete`: the token has three
parts and goes to the signature check, which fails with the signature error, leaving
`out`, whenever the third part is not the signature of the first two, in particular
when its length is not 44. -/
theorem Decode_two_dots {α : Type} (Unmarshal : Bytes → α → α × Option JsonError)
    (key jws : Bytes) (out : α) (hkey : key ≠ []) (h2 : Count jws dot = 2) :
    (Decode Unmarshal key jws out).2 ≠ some .incomplete ∧
    ((sign key ((Split jws dot).getD 0 []) ((Split jws dot).getD 1 [])).1 ≠
        (Split jws dot).getD 2 [] →
      Decode Unmarshal key jws out = (out, some .authFailed)) ∧
    (((Split jws dot).getD 2 []).length ≠ 44 →
      Decode Unmarshal key jws out = (out, some .authFailed)) := by
  have hl : (Split jws dot).length = 3 := by
    rw [Split_length, h2]
  obtain ⟨a, b, c, hs⟩ := Split_of_length_three jws hl
  have hsig : (sign key a b).1 ≠ c → Decode Unmarshal key jws out = (out, some .authFailed) := by
    intro hne
    rw [sign_of_ne_nil _ _ _ hkey] at hne
    exact Decode_of_three_ne Unmarshal key jws a b c out hkey hs hne
  refine ⟨Decode_ne_incomplete Unmarshal key jws out hl, ?_, ?_⟩
  · simpa [hs] using hsig
  · intro hlen
    apply hsig
    intro e
    apply hlen
    simp only [hs, List.getD_cons_succ, List.getD_cons_zero]
    rw [← e]
    exact sign_length key a b hkey

/-- Witness of C5, amended: the key `"abcd"` and the token `".."`. -/
theorem Decode_two_dots_witness :
    ascii "abcd" ≠ [] ∧ Count (ascii "..") dot = 2 ∧
    (Decode tokenUnmarshal (ascii "abcd") (ascii "..") (⟨0, 0, 0⟩ : Token)).2 ≠
      some .incomplete ∧
    Decode tokenUnmarshal (ascii "abcd") (ascii "..") (⟨0, 0, 0⟩ : Token) =
      (⟨0, 0, 0⟩, some .authFailed) :=
  ⟨by decide, by decide,
    (Decode_two_dots tokenUnmarshal (ascii "abcd") (ascii "..") ⟨0, 0, 0⟩ (by decide)
      (by decide)).1,
    (Decode_two_dots tokenUnmarshal (ascii "abcd") (ascii "..") ⟨0, 0, 0⟩ (by decide)
      (by decide)).2.2 (by decide)⟩

/-- Counterexample to C6: with the empty key, the token `"a.b"` fails with the error
`incomplete`, not with the error `emptyKey`. -/
theorem Decode_empty_key_incomplete :
    Decode tokenUnmarshal [] (ascii "a.b") ⟨0, 0, 0⟩ = (⟨0, 0, 0⟩, some .incomplete) ∧
    (Decode tokenUnmarshal [] (ascii "a.b") ⟨0, 0, 0⟩).2 ≠ some .emptyKey := by
  rw [Decode_of_not_three tokenUnmarshal [] _ _ (by decide)]
  exact ⟨rfl, by simp⟩

/-- C6, amended. With the empty key, `Decode` of a token with exactly two `'.'` fails
with the error `emptyKey` ("key can not be empty"), and `Decode` of any other token
fails with the error `incomplete`; `out` is left as it is. -/
theorem Decode_empty_key {α : Type} (Unmarshal : Bytes → α → α × Option JsonError)
    (jws : Bytes) (out : α) :
    Decode Unmarshal [] jws out =
      (out, some (if Count jws dot = 2 then .emptyKey else .incomplete)) := by
  by_cases h2 : Count jws dot = 2
  · rw [if_pos h2, Decode_nil_of_three Unmarshal jws out (by rw [Split_length, h2])]
  · rw [if_neg h2, Decode_of_not_three Unmarshal [] jws out (by rw [Split_length]; omega)]

/-- Counterexample to C7: with the empty key, `Encode` of a channel, which
`json.Marshal` does not encode, fails with the error of `json.Marshal`, not with the
error `emptyKey`. -/
theorem Encode_empty_key_unsupported :
    Encode chanMarshal [] () = ([], some (.json ⟨"json: unsupported type: chan int"⟩)) ∧
    (Encode chanMarshal [] ()).2 ≠ some .emptyKey := by
  simp [Encode, jwsPayload, chanMarshal]

/-- C7, amended. For every payload that `json.Marshal` encodes, `Encode` with the empty
key fails with the error `emptyKey` ("key can not be empty") and returns the empty
token. -/
theorem Encode_empty_key {α : Type} (Marshal : α → Bytes × Option JsonError) (p : α)
    (b : Bytes) (hm : Marshal p = (b, none)) :
    Encode Marshal [] p = ([], some .emptyKey) := by
  simp [Encode, jwsPayload, hm, sign_nil]

/-- Witness of C7, amended: the `Token` with `sub = 23`, `iat = 1000`, `exp = 2000`. -/
theorem Encode_empty_key_witness :
    tokenMarshal ⟨23, 1000, 2000⟩ =
      (ascii "\x7b\"sub\":23,\"iat\":1000,\"exp\":2000\x7d", none) ∧
    Encode tokenMarshal [] (⟨23, 1000, 2000⟩ : Token) = ([], some .emptyKey) :=
  ⟨by decide!, Encode_empty_key tokenMarshal ⟨23, 1000, 2000⟩
    (ascii "\x7b\"sub\":23,\"iat\":1000,\"exp\":2000\x7d") (by decide!)⟩

/-- C8, the code at the failing inputs. Under the key `"abcd"`, the two tokens whose
payload segments `"e30=e30="` and `"e30g!"` are not valid base64 (`DecodeString`
returns an error for both) and whose signature is the one of their first two parts are
decoded without an error: the bytes that `DecodeString` returns next to its error,
`\x7b\x7d` and `\x7b\x7d` followed by a space, are valid JSON, and the error of
`DecodeString` is not read. -/
theorem Decode_corrupt_payload_accepted :
    DecodeString (ascii "e30=e30=") = (ascii "\x7b\x7d", true) ∧
    DecodeString (ascii "e30g!") = (ascii "\x7b\x7d ", true) ∧
    Decode tokenUnmarshal (ascii "abcd")
      (ascii "eyJhbGciOiJIUzI1NiJ9.e30=e30=.cfaBQf+beP+oOuCfE3Ns+sD8GW+TRK2zKkAAZB0FSJg=")
      ⟨1, 2, 3⟩ = (⟨1, 2, 3⟩, none) ∧
    Decode tokenUnmarshal (ascii "abcd")
      (ascii "eyJhbGciOiJIUzI1NiJ9.e30g!.KenqyCAjUtg5+imYzvIwlvCr2uU+HlAAuIPWHHfxZ6A=")
      ⟨1, 2, 3⟩ = (⟨1, 2, 3⟩, none) :=
  ⟨by decide, by decide, by decide!, by decide!⟩

/-- C9. Token layout and signing input: for a non-empty key and a payload that
`json.Marshal` encodes as `b`, the token of `Encode` is `H ++ "." ++ P ++ "." ++ S`,
where `H` is the header segment, `P` the base64 text of `b`, and `S` the base64 text of
the HMAC-SHA256 tag, 32 bytes long, computed with the key over the bytes of
`H ++ "." ++ P`. -/
theorem Encode_layout {α : Type} (Marshal : α → Bytes × Option JsonError) (key : Bytes)
    (p : α) (b : Bytes) (hkey : key ≠ []) (hm : Marshal p = (b, none)) :
    Encode Marshal key p =
      (jwsHeader ++ [dot] ++ EncodeToString b ++ [dot] ++
        EncodeToString (hmacSHA256 key (jwsHeader ++ [dot] ++ EncodeToString b)), none) ∧
    (hmacSHA256 key (jwsHeader ++ [dot] ++ EncodeToString b)).length = 32 := by
  refine ⟨?_, hmacSHA256_length _ _⟩
  rw [Encode_of_ok Marshal key p b hkey hm]
  simp

/-- Witness of C9: the key `"abcd"` and the `Token` with `sub = 23`, `iat = 1000`,
`exp = 2000`. -/
theorem Encode_layout_witness :
    ascii "abcd" ≠ [] ∧
    tokenMarshal ⟨23, 1000, 2000⟩ =
      (ascii "\x7b\"sub\":23,\"iat\":1000,\"exp\":2000\x7d", none) ∧
    Encode tokenMarshal (ascii "abcd") (⟨23, 1000, 2000⟩ : Token) =
      (jwsHeader ++ [dot] ++
        EncodeToString (ascii "\x7b\"sub\":23,\"iat\":1000,\"exp\":2000\x7d") ++ [dot] ++
        EncodeToString (hmacSHA256 (ascii "abcd") (jwsHeader ++ [dot] ++
          EncodeToString (ascii "\x7b\"sub\":23,\"iat\":1000,\"exp\":2000\x7d"))), none) :=
  ⟨by decide, by decide!,
    (Encode_layout tokenMarshal (ascii "abcd") ⟨23, 1000, 2000⟩
      (ascii "\x7b\"sub\":23,\"iat\":1000,\"exp\":2000\x7d") (by decide) (by decide!)).1⟩

/-- C10. Fixed header: `jwsHeader` is the base64 text of the 15 bytes
`\x7b"alg":"HS256"\x7d`, which is `eyJhbGciOiJIUzI1NiJ9`; and for a non-empty key and a
payload that `json.Marshal` encodes, the first part of the token of `Encode` is this
string, whatever the key and the payload. -/
theorem jwsHeader_fixed {α : Type} (Marshal : α → Bytes × Option JsonError) (key : Bytes)
    (p : α) (b : Bytes) (hkey : key ≠ []) (hm : Marshal p = (b, none)) :
    jwsHeader = EncodeToString (ascii "\x7b\"alg\":\"HS256\"\x7d") ∧
    (ascii "\x7b\"alg\":\"HS256\"\x7d").length = 15 ∧
    jwsHeader = ascii "eyJhbGciOiJIUzI1NiJ9" ∧
    (Split (Encode Marshal key p).1 dot).head? = some (ascii "eyJhbGciOiJIUzI1NiJ9") := by
  have hh : jwsHeader = ascii "eyJhbGciOiJIUzI1NiJ9" := by decide
  refine ⟨rfl, by decide, hh, ?_⟩
  rw [Encode_of_ok Marshal key p b hkey hm, Split_token _ _ _ dot_not_mem_jwsHeader, ← hh]
  rfl

/-- Witness of C10: the key `"abcd"` and the `Token` with `sub = 23`, `iat = 1000`,
`exp = 2000`. -/
theorem jwsHeader_fixed_witness :
    ascii "abcd" ≠ [] ∧
    tokenMarshal ⟨23, 1000, 2000⟩ =
      (ascii "\x7b\"sub\":23,\"iat\":1000,\"exp\":2000\x7d", none) ∧
    (Split (Encode tokenMarshal (ascii "abcd") (⟨23, 1000, 2000⟩ : Token)).1 dot).head? =
      some (ascii "eyJhbGciOiJIUzI1NiJ9") :=
  ⟨by decide, by decide!,
    (jwsHeader_fixed tokenMarshal (ascii "abcd") ⟨23, 1000, 2000⟩
      (ascii "\x7b\"sub\":23,\"iat\":1000,\"exp\":2000\x7d") (by decide) (by decide!)).2.2.2⟩

/-! ## Lemmas: the model of `encoding/json` at `Token` -/

theorem formatBits_append (fuel u : Nat) (ds rest : Bytes) :
    formatBits fuel u ds ++ rest = formatBits fuel u (ds ++ rest) := by
  induction fuel generalizing u ds with
  | zero => rfl
  | succ n ih =>
    unfold formatBits
    split
    · rw [ih]
      rfl
    · rfl

theorem scanDigits_digit (acc n d : Nat) (hd : d < 10) (cs : Bytes) :
    scanDigits acc n ((Fin.ofNat (48 + d) : Byte) :: cs) = scanDigits (10 * acc + d) (n + 1) cs := by
  have hv : ((Fin.ofNat (48 + d) : Byte)).val = 48 + d := by
    simp only [Fin.ofNat]
    omega
  rw [scanDigits, hv, if_pos (by omega)]
  congr 1
  omega

theorem formatBits_scan (fuel : Nat) : ∀ (u : Nat) (ds : Bytes), 0 < u → u < fuel →
    ∃ (c : Byte) (cs : Bytes) (m : Nat), formatBits fuel u ds = c :: cs ∧ 49 ≤ c.val ∧
      c.val ≤ 57 ∧ ∀ k, scanDigits (c.val - 48) k cs = scanDigits u (k + m) ds := by
  induction fuel with
  | zero => intro u ds _ h; omega
  | succ n ih =>
    intro u ds hu hlt
    unfold formatBits
    by_cases h10 : 10 ≤ u
    · rw [if_pos h10]
      obtain ⟨c, cs, m, hf, h1, h2, hs⟩ := ih (u / 10) (Fin.ofNat (48 + u % 10) :: ds)
        (by omega) (by omega)
      refine ⟨c, cs, m + 1, hf, h1, h2, fun k => ?_⟩
      rw [hs k, scanDigits_digit _ _ _ (by omega)]
      congr 1
      omega
    · rw [if_neg h10]
      refine ⟨Fin.ofNat (48 + u), ds, 0, rfl, ?_, ?_, fun k => ?_⟩
      · simp only [Fin.ofNat]; omega
      · simp only [Fin.ofNat]; omega
      · have hv : ((Fin.ofNat (48 + u) : Byte)).val = 48 + u := by
          simp only [Fin.ofNat]
          omega
        rw [hv]
        congr 1
        omega

theorem scanDigits_stop (acc n : Nat) (c0 : Byte) (r : Bytes)
    (h0 : ¬ (48 ≤ c0.val ∧ c0.val ≤ 57)) : scanDigits acc n (c0 :: r) = (acc, n, c0 :: r) := by
  rw [scanDigits, if_neg h0]

theorem scanNat_formatBits (u : Nat) (c0 : Byte) (r : Bytes)
    (h0 : ¬ (48 ≤ c0.val ∧ c0.val ≤ 57)) :
    ∃ (c : Byte) (cs : Bytes), formatBits (u + 1) u [] ++ c0 :: r = c :: cs ∧ 48 ≤ c.val ∧
      c.val ≤ 57 ∧ scanNat (c :: cs) = some (u, c0 :: r) := by
  rw [formatBits_append, List.nil_append]
  rcases Nat.eq_zero_or_pos u with hu | hu
  · subst hu
    exact ⟨48, c0 :: r, rfl, by decide, by decide, rfl⟩
  · obtain ⟨c, cs, m, hf, h1, h2, hs⟩ := formatBits_scan (u + 1) u (c0 :: r) hu (by omega)
    refine ⟨c, cs, hf, by omega, h2, ?_⟩
    have hc : c ≠ 48 := by
      intro e
      rw [e] at h1
      exact absurd h1 (by decide)
    rw [scanNat, if_neg hc, if_pos ⟨h1, h2⟩, hs 1, scanDigits_stop _ _ _ _ h0]

theorem appendInt_scan (v : Int) (c0 : Byte) (r : Bytes) (h0 : ¬ (48 ≤ c0.val ∧ c0.val ≤ 57)) :
    skipSpace (appendInt v ++ c0 :: r) = appendInt v ++ c0 :: r ∧
    scanInt (appendInt v ++ c0 :: r) = some (v, c0 :: r) := by
  obtain ⟨c, cs, hf, h1, h2, hs⟩ := scanNat_formatBits v.natAbs c0 r h0
  have hsp : isSpace c = false := by
    have : c ≠ 32 ∧ c ≠ 9 ∧ c ≠ 10 ∧ c ≠ 13 := by
      refine ⟨?_, ?_, ?_, ?_⟩ <;> intro e <;> rw [e] at h1 <;> exact absurd h1 (by decide)
    simp [isSpace, this]
  have h45 : c ≠ 45 := by
    intro e
    rw [e] at h1
    exact absurd h1 (by decide)
  by_cases hv : v < 0
  · have ha : appendInt v ++ c0 :: r = 45 :: c :: cs := by
      simp only [appendInt, if_pos hv, List.cons_append, hf]
    rw [ha]
    refine ⟨by simp [skipSpace, isSpace], ?_⟩
    rw [scanInt, if_pos rfl, hs]
    simp only [Option.some.injEq, Prod.mk.injEq, and_true]
    omega
  · have ha : appendInt v ++ c0 :: r = c :: cs := by
      simp only [appendInt, if_neg hv, hf]
    rw [ha]
    refine ⟨by simp [skipSpace, hsp], ?_⟩
    rw [scanInt, if_neg h45, hs]
    simp only [Option.some.injEq, Prod.mk.injEq, and_true]
    omega

/-- The text that `tokenMarshal` produces, byte by byte. -/
theorem tokenMarshal_eq (t : Token) :
    tokenMarshal t =
      (123 :: 34 :: ([115, 117, 98] ++ 34 :: 58 :: (appendInt t.UserID ++
        44 :: 34 :: ([105, 97, 116] ++ 34 :: 58 :: (appendInt t.CreatedAt ++
        44 :: 34 :: ([101, 120, 112] ++ 34 :: 58 :: (appendInt t.ExpiresAt ++ [125])))))),
        none) := by
  have h1 : ascii "\x7b\"sub\":" = [123, 34, 115, 117, 98, 34, 58] := by decide
  have h2 : ascii ",\"iat\":" = [44, 34, 105, 97, 116, 34, 58] := by decide
  have h3 : ascii ",\"exp\":" = [44, 34, 101, 120, 112, 34, 58] := by decide
  have h4 : ascii "\x7d" = [125] := by decide
  simp only [tokenMarshal, h1, h2, h3, h4, List.cons_append, List.nil_append,
    List.append_assoc]

/-- A key of printable ASCII characters without quote and backslash is read up to its
closing quote. -/
theorem scanKey_plain (k rest : Bytes)
    (hk : ∀ c ∈ k, c ≠ 34 ∧ ¬ (c = 92 ∨ c.val < 32 ∨ 127 ≤ c.val)) :
    scanKey (k ++ 34 :: rest) = some (k, rest) := by
  induction k with
  | nil => simp [scanKey]
  | cons c cs ih =>
    have hc := hk c (by simp)
    have hcs := ih (fun x hx => hk x (by simp [hx]))
    rw [List.cons_append, scanKey, if_neg hc.1, if_neg hc.2, hcs]

/-- One member `"k":v` at the start of an object, followed by `d`. -/
theorem scanMembers_first (fuel : Nat) (k : Bytes) (v : Int) (d : Byte) (r : Bytes)
    (hk : ∀ c ∈ k, c ≠ 34 ∧ ¬ (c = 92 ∨ c.val < 32 ∨ 127 ≤ c.val))
    (hd : d = 44 ∨ d = 125) :
    scanMembers (fuel + 1) true (34 :: (k ++ 34 :: 58 :: (appendInt v ++ d :: r))) =
      if d = 125 then some ([(k, v)], r)
      else
        match scanMembers fuel false (d :: r) with
        | none => none
        | some (ms, rest) => some ((k, v) :: ms, rest) := by
  have hdig : ¬ (48 ≤ d.val ∧ d.val ≤ 57) := by
    rcases hd with e | e <;> subst e <;> decide
  have hsp : isSpace d = false := by
    rcases hd with e | e <;> subst e <;> decide
  obtain ⟨a1, b1⟩ := appendInt_scan v d r hdig
  have e1 : skipSpace (34 :: (k ++ 34 :: 58 :: (appendInt v ++ d :: r))) =
      34 :: (k ++ 34 :: 58 :: (appendInt v ++ d :: r)) := by
    simp [skipSpace, isSpace]
  have e2 : skipSpace (58 :: (appendInt v ++ d :: r)) = 58 :: (appendInt v ++ d :: r) := by
    simp [skipSpace, isSpace]
  have e3 : skipSpace (d :: r) = d :: r := by
    simp [skipSpace, hsp]
  rw [scanMembers]
  simp only [e1]
  simp only [Bool.and_true, decide_eq_true_eq, if_true, ne_eq, not_true_eq_false, if_false,
    show ¬ ((34 : Byte) = 125) by decide, false_and]
  rw [scanKey_plain k _ hk]
  simp only [e2, a1, b1, e3, ne_eq, not_true_eq_false, if_false]

/-- One member `,"k":v` after another member, followed by `d`. -/
theorem scanMembers_next (fuel : Nat) (k : Bytes) (v : Int) (d : Byte) (r : Bytes)
    (hk : ∀ c ∈ k, c ≠ 34 ∧ ¬ (c = 92 ∨ c.val < 32 ∨ 127 ≤ c.val))
    (hd : d = 44 ∨ d = 125) :
    scanMembers (fuel + 1) false (44 :: 34 :: (k ++ 34 :: 58 :: (appendInt v ++ d :: r))) =
      if d = 125 then some ([(k, v)], r)
      else
        match scanMembers fuel false (d :: r) with
        | none => none
        | some (ms, rest) => some ((k, v) :: ms, rest) := by
  have hdig : ¬ (48 ≤ d.val ∧ d.val ≤ 57) := by
    rcases hd with e | e <;> subst e <;> decide
  have hsp : isSpace d = false := by
    rcases hd with e | e <;> subst e <;> decide
  obtain ⟨a1, b1⟩ := appendInt_scan v d r hdig
  have e0 : skipSpace (44 :: 34 :: (k ++ 34 :: 58 :: (appendInt v ++ d :: r))) =
      44 :: 34 :: (k ++ 34 :: 58 :: (appendInt v ++ d :: r)) := by
    simp [skipSpace, isSpace]
  have e1 : skipSpace (34 :: (k ++ 34 :: 58 :: (appendInt v ++ d :: r))) =
      34 :: (k ++ 34 :: 58 :: (appendInt v ++ d :: r)) := by
    simp [skipSpace, isSpace]
  have e2 : skipSpace (58 :: (appendInt v ++ d :: r)) = 58 :: (appendInt v ++ d :: r) := by
    simp [skipSpace, isSpace]
  have e3 : skipSpace (d :: r) = d :: r := by
    simp [skipSpace, hsp]
  rw [scanMembers]
  simp only [e0]
  simp only [Bool.false_eq_true, and_false, if_false, if_true, e1, ne_eq, not_true_eq_false]
  rw [scanKey_plain k _ hk]
  simp only [e2, a1, b1, e3, ne_eq, not_true_eq_false, if_false]

theorem plain_sub : ∀ c ∈ ([115, 117, 98] : Bytes),
    c ≠ 34 ∧ ¬ (c = 92 ∨ c.val < 32 ∨ 127 ≤ c.val) := by
  intro c hc
  simp only [List.mem_cons, List.mem_singleton, List.not_mem_nil, or_false] at hc
  rcases hc with e | e | e <;> subst e <;> decide

theorem plain_iat : ∀ c ∈ ([105, 97, 116] : Bytes),
    c ≠ 34 ∧ ¬ (c = 92 ∨ c.val < 32 ∨ 127 ≤ c.val) := by
  intro c hc
  simp only [List.mem_cons, List.mem_singleton, List.not_mem_nil, or_false] at hc
  rcases hc with e | e | e <;> subst e <;> decide

theorem plain_exp : ∀ c ∈ ([101, 120, 112] : Bytes),
    c ≠ 34 ∧ ¬ (c = 92 ∨ c.val < 32 ∨ 127 ≤ c.val) := by
  intro c hc
  simp only [List.mem_cons, List.mem_singleton, List.not_mem_nil, or_false] at hc
  rcases hc with e | e | e <;> subst e <;> decide

/-- The members that `scanObject` reads from the text of `tokenMarshal`. -/
theorem scanObject_tokenMarshal (t : Token) :
    scanObject (tokenMarshal t).1 =
      some [([115, 117, 98], t.UserID), ([105, 97, 116], t.CreatedAt),
        ([101, 120, 112], t.ExpiresAt)] := by
  rw [tokenMarshal_eq]
  simp only [scanObject]
  have e0 : ∀ rest : Bytes, skipSpace (123 :: rest) = 123 :: rest := by
    intro rest
    simp [skipSpace, isSpace]
  rw [e0]
  simp only [ne_eq, not_true_eq_false, if_false]
  obtain ⟨n, hn⟩ : ∃ n, (123 :: 34 :: ([115, 117, 98] ++ 34 :: 58 :: (appendInt t.UserID ++
        44 :: 34 :: ([105, 97, 116] ++ 34 :: 58 :: (appendInt t.CreatedAt ++
        44 :: 34 :: ([101, 120, 112] ++ 34 :: 58 :: (appendInt t.ExpiresAt ++ [125])))))) :
          Bytes).length + 1 = n + 3 :=
    Nat.exists_eq_add_of_le' (by simp only [List.length_cons, List.length_append]; omega)
  rw [hn, scanMembers_first _ _ _ 44 _ plain_sub (Or.inl rfl),
    if_neg (by decide), scanMembers_next _ _ _ 44 _ plain_iat (Or.inl rfl),
    if_neg (by decide), scanMembers_next _ _ _ 125 _ plain_exp (Or.inr rfl), if_pos rfl]
  simp [skipSpace]

/-- Reading back what `tokenMarshal` wrote: for a token whose fields are in the range
of `int64`, `tokenUnmarshal` stores the three fields and returns no error, whatever
the token held before. -/
theorem tokenUnmarshal_tokenMarshal (t out : Token)
    (h1 : -(2 : Int) ^ 63 ≤ t.UserID ∧ t.UserID < (2 : Int) ^ 63)
    (h2 : -(2 : Int) ^ 63 ≤ t.CreatedAt ∧ t.CreatedAt < (2 : Int) ^ 63)
    (h3 : -(2 : Int) ^ 63 ≤ t.ExpiresAt ∧ t.ExpiresAt < (2 : Int) ^ 63) :
    tokenUnmarshal (tokenMarshal t).1 out = (t, none) := by
  have hs : ascii "sub" = [115, 117, 98] := by decide
  have hi : ascii "iat" = [105, 97, 116] := by decide
  have he : ascii "exp" = [101, 120, 112] := by decide
  have l1 : List.map lower ([115, 117, 98] : Bytes) = [115, 117, 98] := by decide
  have l2 : List.map lower ([105, 97, 116] : Bytes) = [105, 97, 116] := by decide
  have l3 : List.map lower ([101, 120, 112] : Bytes) = [101, 120, 112] := by decide
  have n1 : ([105, 97, 116] : Bytes) ≠ [115, 117, 98] := by decide
  have n2 : ([101, 120, 112] : Bytes) ≠ [115, 117, 98] := by decide
  have n3 : ([101, 120, 112] : Bytes) ≠ [105, 97, 116] := by decide
  rw [tokenUnmarshal, scanObject_tokenMarshal]
  simp only [List.foldl, storeMember, hs, hi, he, l1, l2, l3, n1, n2, n3, h1, h2, h3,
    and_self, if_true, if_false, true_or, or_true, or_false, false_or]

/-- Round trip at `Token`: for a non-empty key and a token whose fields are in the
range of `int64`, `Decode` of what `Encode` returns gives the token back without an
error, whatever `out` held before. -/
theorem Decode_Encode_Token (key : Bytes) (t out : Token) (hkey : key ≠ [])
    (h1 : -(2 : Int) ^ 63 ≤ t.UserID ∧ t.UserID < (2 : Int) ^ 63)
    (h2 : -(2 : Int) ^ 63 ≤ t.CreatedAt ∧ t.CreatedAt < (2 : Int) ^ 63)
    (h3 : -(2 : Int) ^ 63 ≤ t.ExpiresAt ∧ t.ExpiresAt < (2 : Int) ^ 63) :
    Decode tokenUnmarshal key (Encode tokenMarshal key t).1 out = (t, none) := by
  have hm : tokenMarshal t = ((tokenMarshal t).1, none) := rfl
  rw [Encode_of_ok tokenMarshal key t _ hkey hm,
    Decode_of_three_eq tokenUnmarshal key _ _ _ _ out hkey
      (Split_token _ _ _ dot_not_mem_jwsHeader) rfl,
    DecodeString_EncodeToString, tokenUnmarshal_tokenMarshal t out h1 h2 h3]
  rfl

/-! ## Test vectors

The models of SHA-256 and HMAC agree with the published test vectors; the last
theorem gives the token of the test's payload under the test's key in full. -/

/-- SHA-256 of `"abc"` (FIPS 180-4):
`ba7816bf 8f01cfea 414140de 5dae2223 b00361a3 96177a9c b410ff61 f20015ad`. -/
theorem sha256_abc :
    sha256 (ascii "abc") =
      [186, 120, 22, 191, 143, 1, 207, 234, 65, 65, 64, 222, 93, 174, 34, 35, 176, 3, 97,
       163, 150, 23, 122, 156, 180, 16, 255, 97, 242, 0, 21, 173] := by decide!

/-- HMAC-SHA256, test case 2 of RFC 4231: key `"Jefe"`, data
`"what do ya want for nothing?"`. -/
theorem hmacSHA256_rfc4231 :
    hmacSHA256 (ascii "Jefe") (ascii "what do ya want for nothing?") =
      [91, 220, 193, 70, 191, 96, 117, 78, 106, 4, 36, 38, 8, 149, 117, 199, 90, 0, 63, 8,
       157, 39, 57, 131, 157, 236, 88, 185, 100, 236, 56, 67] := by decide!

/-- The token of `Token` with `sub = 23`, `iat = 1000`, `exp = 2000` under the key
`"abcd"`. -/
theorem Encode_abcd :
    Encode tokenMarshal (ascii "abcd") (⟨23, 1000, 2000⟩ : Token) =
      (ascii ("eyJhbGciOiJIUzI1NiJ9.eyJzdWIiOjIzLCJpYXQiOjEwMDAsImV4cCI6MjAwMH0=." ++
        "dV12b4YQLZBfdg2noKknIacZYUejF2Cj3T5iw2I1c80="), none) := by decide!

/-! ## Theorems, continued -/

/-- The four ways `Decode` returns: the token has not three parts; the key is empty;
the third part is not the signature of the first two; or the signature matches and
the result is that of `json.Unmarshal` on the decoded second part. In the first three
the value `out` is returned as it was. -/
theorem Decode_cases {α : Type} (Unmarshal : Bytes → α → α × Option JsonError)
    (key jws : Bytes) (out : α) :
    ((Split jws dot).length ≠ 3 ∧ Decode Unmarshal key jws out = (out, some .incomplete)) ∨
    ((Split jws dot).length = 3 ∧ key = [] ∧
      Decode Unmarshal key jws out = (out, some .emptyKey)) ∨
    (∃ h p s, Split jws dot = [h, p, s] ∧ key ≠ [] ∧ (sign key h p).1 ≠ s ∧
      Decode Unmarshal key jws out = (out, some .authFailed)) ∨
    (∃ h p s, Split jws dot = [h, p, s] ∧ key ≠ [] ∧ sign key h p = (s, none) ∧
      Decode Unmarshal key jws out =
        ((Unmarshal (DecodeString p).1 out).1,
          (Unmarshal (DecodeString p).1 out).2.map .json)) := by
  by_cases hl : (Split jws dot).length = 3
  · by_cases hkey : key = []
    · subst hkey
      exact Or.inr (Or.inl ⟨hl, rfl, Decode_nil_of_three Unmarshal jws out hl⟩)
    · obtain ⟨h, p, s, hs⟩ := Split_of_length_three jws hl
      by_cases hsig : EncodeToString (hmacSHA256 key (h ++ dot :: p)) = s
      · refine Or.inr (Or.inr (Or.inr ⟨h, p, s, hs, hkey, ?_,
          Decode_of_three_eq Unmarshal key jws h p s out hkey hs hsig⟩))
        rw [sign_of_ne_nil _ _ _ hkey, hsig]
      · refine Or.inr (Or.inr (Or.inl ⟨h, p, s, hs, hkey, ?_,
          Decode_of_three_ne Unmarshal key jws h p s out hkey hs hsig⟩))
        rw [sign_of_ne_nil _ _ _ hkey]
        exact hsig
  · exact Or.inl ⟨hl, Decode_of_not_three Unmarshal key jws out hl⟩

theorem EncodeToString_ne_nil (bs : Bytes) (h : bs ≠ []) : EncodeToString bs ≠ [] := by
  intro e
  have hl := congrArg List.length e
  rw [EncodeToString_length] at hl
  have : 0 < bs.length := List.length_pos.2 h
  simp only [List.length_nil] at hl
  omega

theorem Count_append (a b : Bytes) (sep : Byte) :
    Count (a ++ b) sep = Count a sep + Count b sep := by
  simp [Count, List.count_append]

theorem Count_of_not_mem (a : Bytes) (sep : Byte) (h : sep ∉ a) : Count a sep = 0 := by
  simp [Count, List.count_eq_zero, h]

/-- C11. Compact-token shape: for a non-empty key and a payload that `json.Marshal`
encodes as `b` (a JSON text, hence not empty), the token of `Encode` contains exactly
two `'.'`, and splitting it on `'.'` gives exactly three parts, in the order header,
payload, signature; none of them is empty and none contains `'.'`. -/
theorem Encode_shape {α : Type} (Marshal : α → Bytes × Option JsonError) (key : Bytes)
    (p : α) (b : Bytes) (hkey : key ≠ []) (hm : Marshal p = (b, none)) (hb : b ≠ []) :
    Count (Encode Marshal key p).1 dot = 2 ∧
    Split (Encode Marshal key p).1 dot =
      [jwsHeader, (jwsPayload Marshal p).1, (sign key jwsHeader (jwsPayload Marshal p).1).1] ∧
    (Split (Encode Marshal key p).1 dot).length = 3 ∧
    (∀ seg ∈ Split (Encode Marshal key p).1 dot, seg ≠ [] ∧ dot ∉ seg) := by
  have hp : (jwsPayload Marshal p).1 = EncodeToString b := by
    simp [jwsPayload, hm]
  have hsp := Split_token jwsHeader b
    (hmacSHA256 key (jwsHeader ++ dot :: EncodeToString b)) dot_not_mem_jwsHeader
  rw [Encode_of_ok Marshal key p b hkey hm, hp, sign_of_ne_nil _ _ _ hkey]
  refine ⟨?_, hsp, by rw [hsp]; rfl, ?_⟩
  · have h3 := Split_length (jwsHeader ++ dot :: (EncodeToString b ++ dot ::
      EncodeToString (hmacSHA256 key (jwsHeader ++ dot :: EncodeToString b)))) dot
    rw [hsp] at h3
    simp only [List.length_cons, List.length_nil] at h3
    show Count (jwsHeader ++ dot :: (EncodeToString b ++ dot ::
      EncodeToString (hmacSHA256 key (jwsHeader ++ dot :: EncodeToString b)))) dot = 2
    omega
  · intro seg hseg
    rw [hsp] at hseg
    simp only [List.mem_cons, List.mem_singleton, List.not_mem_nil, or_false] at hseg
    rcases hseg with e | e | e
    · subst e
      exact ⟨by decide, dot_not_mem_jwsHeader⟩
    · subst e
      exact ⟨EncodeToString_ne_nil b hb, dot_not_mem_EncodeToString b⟩
    · subst e
      refine ⟨EncodeToString_ne_nil _ ?_, dot_not_mem_EncodeToString _⟩
      intro e0
      have := hmacSHA256_length key (jwsHeader ++ dot :: EncodeToString b)
      rw [e0] at this
      exact absurd this (by decide)

/-- Witness of C11: the key `"abcd"` and the `Token` with `sub = 23`, `iat = 1000`,
`exp = 2000`. -/
theorem Encode_shape_witness :
    ascii "abcd" ≠ [] ∧
    tokenMarshal ⟨23, 1000, 2000⟩ =
      (ascii "\x7b\"sub\":23,\"iat\":1000,\"exp\":2000\x7d", none) ∧
    ascii "\x7b\"sub\":23,\"iat\":1000,\"exp\":2000\x7d" ≠ [] ∧
    Count (Encode tokenMarshal (ascii "abcd") (⟨23, 1000, 2000⟩ : Token)).1 dot = 2 ∧
    (Split (Encode tokenMarshal (ascii "abcd") (⟨23, 1000, 2000⟩ : Token)).1 dot).length = 3 :=
  ⟨by decide, by decide!, by decide,
    (Encode_shape tokenMarshal (ascii "abcd") ⟨23, 1000, 2000⟩
      (ascii "\x7b\"sub\":23,\"iat\":1000,\"exp\":2000\x7d") (by decide) (by decide!)
      (by decide)).1,
    (Encode_shape tokenMarshal (ascii "abcd") ⟨23, 1000, 2000⟩
      (ascii "\x7b\"sub\":23,\"iat\":1000,\"exp\":2000\x7d") (by decide) (by decide!)
      (by decide)).2.2.1⟩

/-- C12. No output on rejection: if `Decode` fails with the error `incomplete`, the
error `emptyKey` or the error `authFailed`, the value that `payload` points to is
what it was before the call; and whenever that value has changed, the token had
three parts, `sign` returned its third part for the first two without an error, and
the new value is what `json.Unmarshal` made of the decoded second part. -/
theorem Decode_rejected_out {α : Type} (Unmarshal : Bytes → α → α × Option JsonError)
    (key jws : Bytes) (out : α) :
    ((Decode Unmarshal key jws out).2 = some .incomplete ∨
      (Decode Unmarshal key jws out).2 = some .emptyKey ∨
      (Decode Unmarshal key jws out).2 = some .authFailed →
        (Decode Unmarshal key jws out).1 = out) ∧
    ((Decode Unmarshal key jws out).1 ≠ out →
      ∃ h p s, Split jws dot = [h, p, s] ∧ sign key h p = (s, none) ∧
        (Decode Unmarshal key jws out).1 = (Unmarshal (DecodeString p).1 out).1) := by
  rcases Decode_cases Unmarshal key jws out with ⟨_, hd⟩ | ⟨_, _, hd⟩ | ⟨h, p, s, _, _, _, hd⟩ |
    ⟨h, p, s, hs, _, hsig, hd⟩
  · rw [hd]
    exact ⟨fun _ => rfl, fun hne => absurd rfl hne⟩
  · rw [hd]
    exact ⟨fun _ => rfl, fun hne => absurd rfl hne⟩
  · rw [hd]
    exact ⟨fun _ => rfl, fun hne => absurd rfl hne⟩
  · rw [hd]
    refine ⟨fun herr => ?_, fun _ => ⟨h, p, s, hs, hsig, rfl⟩⟩
    cases hu : (Unmarshal (DecodeString p).1 out).2 <;> simp [hu] at herr

/-- Witness of C12: under the key `"abcd"` the token `"a.b"` fails with the error
`incomplete`, and the `Token` that `payload` points to is left as it was. -/
theorem Decode_rejected_out_witness :
    (Decode tokenUnmarshal (ascii "abcd") (ascii "a.b") (⟨1, 2, 3⟩ : Token)).2 =
      some .incomplete ∧
    (Decode tokenUnmarshal (ascii "abcd") (ascii "a.b") (⟨1, 2, 3⟩ : Token)).1 = ⟨1, 2, 3⟩ :=
  ⟨by decide,
    (Decode_rejected_out tokenUnmarshal (ascii "abcd") (ascii "a.b") ⟨1, 2, 3⟩).1
      (Or.inl (by decide))⟩

/-- C13, the code at the input of `TestJwsInvalidKey`. Decoding under the key `"efgh"`
the token made under the key `"abcd"` returns an error, the error `authFailed`; its
message is `jws: signature authentication failed`, which does not contain
`jws signature:`. -/
theorem Decode_wrong_key_message :
    Decode tokenUnmarshal (ascii "efgh")
      (Encode tokenMarshal (ascii "abcd") (⟨23, 1000, 2000⟩ : Token)).1 ⟨0, 0, 0⟩ =
      (⟨0, 0, 0⟩, some .authFailed) ∧
    Error.message .authFailed = "jws: signature authentication failed" ∧
    Contains (ascii (Error.message .authFailed)) (ascii "jws signature:") = false ∧
    Contains (ascii (Error.message .authFailed)) (ascii "jws: signature") = true :=
  ⟨by decide!, rfl, by decide!, by decide!⟩

/-- C15. The signature check is exact and comes before the payload is parsed: for a
non-empty key and a token whose three parts are `h`, `p` and `s`, `Decode` returns
the error `authFailed` ("signature authentication failed") if and only if `s` is not
equal to the string that `sign` returns for `h` and `p`; and for such an `s`, `Decode`
does not succeed, returns no error of `json.Unmarshal`, and leaves `out` as it was. -/
theorem Decode_authFailed_iff {α : Type} (Unmarshal : Bytes → α → α × Option JsonError)
    (key jws h p s : Bytes) (out : α) (hkey : key ≠ []) (hs : Split jws dot = [h, p, s]) :
    ((Decode Unmarshal key jws out).2 = some .authFailed ↔ s ≠ (sign key h p).1) ∧
    (s ≠ (sign key h p).1 →
      (Decode Unmarshal key jws out).2 ≠ none ∧
      (∀ e, (Decode Unmarshal key jws out).2 ≠ some (.json e)) ∧
      (Decode Unmarshal key jws out).1 = out) := by
  rw [sign_of_ne_nil _ _ _ hkey]
  by_cases hsig : EncodeToString (hmacSHA256 key (h ++ dot :: p)) = s
  · rw [Decode_of_three_eq Unmarshal key jws h p s out hkey hs hsig]
    refine ⟨⟨fun herr => ?_, fun hne => absurd hsig.symm hne⟩, fun hne => absurd hsig.symm hne⟩
    cases hu : (Unmarshal (DecodeString p).1 out).2 <;> simp [hu] at herr
  · rw [Decode_of_three_ne Unmarshal key jws h p s out hkey hs hsig]
    refine ⟨⟨fun _ e => hsig e.symm, fun _ => rfl⟩, fun _ => ⟨by simp, fun e => by simp, rfl⟩⟩

/-- Witness of C15: under the key `"abcd"`, the token whose parts are `"a"`, `"b"` and
`"c"` fails with the error `authFailed`. -/
theorem Decode_authFailed_iff_witness :
    ascii "abcd" ≠ [] ∧ Split (ascii "a.b.c") dot = [ascii "a", ascii "b", ascii "c"] ∧
    ascii "c" ≠ (sign (ascii "abcd") (ascii "a") (ascii "b")).1 ∧
    (Decode tokenUnmarshal (ascii "abcd") (ascii "a.b.c") (⟨1, 2, 3⟩ : Token)).2 =
      some .authFailed :=
  ⟨by decide, by decide, by decide!,
    (Decode_authFailed_iff tokenUnmarshal (ascii "abcd") (ascii "a.b.c") (ascii "a")
      (ascii "b") (ascii "c") ⟨1, 2, 3⟩ (by decide) (by decide)).1.2 (by decide!)⟩

/-- C16. The header is opaque on decode: for a non-empty key, any first part `h`
without `'.'` (the empty string and strings that are not the fixed header included) and
a payload that `json.Marshal` encodes as `b` and `json.Unmarshal` reads back from `b`
into `out` without loss, `Decode` of `h ++ "." ++ P ++ "." ++ sign(key, h, P)`, where
`P` is the base64 text of `b`, returns no error and leaves `out` equal to the
payload. -/
theorem Decode_any_header {α : Type} (Marshal : α → Bytes × Option JsonError)
    (Unmarshal : Bytes → α → α × Option JsonError) (key h : Bytes) (p out : α) (b : Bytes)
    (hkey : key ≠ []) (hh : dot ∉ h) (hm : Marshal p = (b, none))
    (hu : Unmarshal b out = (p, none)) :
    Decode Unmarshal key
      (h ++ [dot] ++ (jwsPayload Marshal p).1 ++ [dot] ++
        (sign key h (jwsPayload Marshal p).1).1) out = (p, none) := by
  have hp : (jwsPayload Marshal p).1 = EncodeToString b := by
    simp [jwsPayload, hm]
  rw [hp, sign_of_ne_nil _ _ _ hkey]
  have hj : h ++ [dot] ++ EncodeToString b ++ [dot] ++
      EncodeToString (hmacSHA256 key (h ++ dot :: EncodeToString b)) =
      h ++ dot :: (EncodeToString b ++ dot ::
        EncodeToString (hmacSHA256 key (h ++ dot :: EncodeToString b))) := by
    simp
  rw [hj, Decode_of_three_eq Unmarshal key _ _ _ _ out hkey (Split_token _ _ _ hh) rfl,
    DecodeString_EncodeToString, hu]
  rfl

/-- Witness of C16: the key `"abcd"`, the empty header, and the `Token` with `sub = 23`,
`iat = 1000`, `exp = 2000`. -/
theorem Decode_any_header_witness :
    ascii "abcd" ≠ [] ∧ dot ∉ ([] : Bytes) ∧
    tokenMarshal ⟨23, 1000, 2000⟩ =
      (ascii "\x7b\"sub\":23,\"iat\":1000,\"exp\":2000\x7d", none) ∧
    tokenUnmarshal (ascii "\x7b\"sub\":23,\"iat\":1000,\"exp\":2000\x7d") ⟨0, 0, 0⟩ =
      (⟨23, 1000, 2000⟩, none) ∧
    Decode tokenUnmarshal (ascii "abcd")
      ([] ++ [dot] ++ (jwsPayload tokenMarshal (⟨23, 1000, 2000⟩ : Token)).1 ++ [dot] ++
        (sign (ascii "abcd") [] (jwsPayload tokenMarshal (⟨23, 1000, 2000⟩ : Token)).1).1)
      ⟨0, 0, 0⟩ = (⟨23, 1000, 2000⟩, none) :=
  ⟨by decide, by decide, by decide!, by decide!,
    Decode_any_header tokenMarshal tokenUnmarshal (ascii "abcd") [] ⟨23, 1000, 2000⟩
      ⟨0, 0, 0⟩ (ascii "\x7b\"sub\":23,\"iat\":1000,\"exp\":2000\x7d") (by decide)
      (by decide) (by decide!) (by decide!)⟩

/-- C17. `Encode` returns no partial token: whenever `Encode` returns an error, the
token it returns is the empty string; and when `json.Marshal` fails on the payload
with the error `e`, `Encode` returns the empty token and the error `e` for every key,
the empty key included. -/
theorem Encode_error_token {α : Type} (Marshal : α → Bytes × Option JsonError) (key : Bytes)
    (p : α) :
    ((Encode Marshal key p).2 ≠ none → (Encode Marshal key p).1 = []) ∧
    (∀ e, (Marshal p).2 = some e →
      Encode Marshal key p = ([], some (.json e)) ∧ Encode Marshal [] p = ([], some (.json e)))
    := by
  constructor
  · intro herr
    rcases hmp : Marshal p with ⟨b, _ | e⟩
    · by_cases hkey : key = []
      · subst hkey
        simp [Encode, jwsPayload, hmp, sign_nil]
      · rw [Encode_of_ok Marshal key p b hkey hmp] at herr
        exact absurd rfl herr
    · simp [Encode, jwsPayload, hmp]
  · intro e he
    rcases hmp : Marshal p with ⟨b, oe⟩
    rw [hmp] at he
    simp only at he
    subst he
    simp [Encode, jwsPayload, hmp]

/-- Witness of C17: a channel, which `json.Marshal` does not encode, under the key
`"abcd"` and under the empty key. -/
theorem Encode_error_token_witness :
    (chanMarshal ()).2 = some ⟨"json: unsupported type: chan int"⟩ ∧
    (Encode chanMarshal (ascii "abcd") ()).2 ≠ none ∧
    (Encode chanMarshal (ascii "abcd") ()).1 = [] ∧
    Encode chanMarshal (ascii "abcd") () =
      ([], some (.json ⟨"json: unsupported type: chan int"⟩)) ∧
    Encode chanMarshal [] () = ([], some (.json ⟨"json: unsupported type: chan int"⟩)) :=
  ⟨rfl, by simp [Encode, jwsPayload, chanMarshal],
    (Encode_error_token chanMarshal (ascii "abcd") ()).1
      (by simp [Encode, jwsPayload, chanMarshal]),
    ((Encode_error_token chanMarshal (ascii "abcd") ()).2 _ rfl).1,
    ((Encode_error_token chanMarshal (ascii "abcd") ()).2 _ rfl).2⟩

end Jws
